import Mathlib

/-!
# Verification of the circlez image-approximation engine

Shallow embedding of `src/main.rs`.  Conventions used throughout:

* machine integers (`u32`, `usize`, `isize`, `u8`) are modeled as `ℕ` / `ℤ`
  (no arithmetic in the program can overflow on the inputs considered, and
  the spec states all properties over mathematical integers);
* `f32` arithmetic is modeled exactly over `ℚ` / `ℤ` — every float the
  program manipulates (channel bytes, squared differences, their sums) is
  exactly representable, and the spec asks for equalities only up to
  floating-point tolerance;
* Rust panics (out-of-range slicing, `random_range` on an empty range,
  `unwrap` on `None`) are modeled by `Option.none`.
-/

/-- Rust `type Color = [u8; 3]` (src/main.rs:302): one RGB triple.
Channel bytes are naturals; `Color.InRange` states the `u8` range. -/
structure Color where
  r : ℕ
  g : ℕ
  b : ℕ
deriving DecidableEq

/-- The `u8` range of the three channels. -/
def Color.InRange (c : Color) : Prop := c.r < 256 ∧ c.g < 256 ∧ c.b < 256

instance (c : Color) : Decidable c.InRange := by
  unfold Color.InRange; infer_instance

/-- Rust `type Point = [u32; 2]` (src/main.rs:301); `.1` is x, `.2` is y. -/
abbrev Point : Type := ℕ × ℕ

/-- Rust `struct Image` (src/main.rs:234-239): row-major RGB byte buffer. -/
structure Image where
  width : ℕ
  height : ℕ
  pixels : List ℕ
deriving DecidableEq

/-- Buffer invariant established by `From<RgbImage>` (src/main.rs:287-299):
`pixels.len() == width * height * 3`. -/
def Image.WF (img : Image) : Prop :=
  img.pixels.length = img.width * img.height * 3

instance (img : Image) : Decidable img.WF := by
  unfold Image.WF; infer_instance

/-- `Image::pixel_loss` (src/main.rs:261-266): sum over the three channels of
the squared difference of the channel values (computed in `f32` on exactly
representable integers, hence modeled in `ℤ`). -/
def Image.pixel_loss (a b : Color) : ℤ :=
  ((a.r : ℤ) - (b.r : ℤ)) ^ 2 + ((a.g : ℤ) - (b.g : ℤ)) ^ 2
    + ((a.b : ℤ) - (b.b : ℤ)) ^ 2

/-- `Image::color_at` (src/main.rs:274-278): reads the 3-byte slice at
`offset = (y*width + x)*3`; slicing out of range panics (`none`).  Note the
source checks only this flat offset, not `x < width`. -/
def Image.color_at (img : Image) (p : Point) : Option Color :=
  match img.pixels[(p.2 * img.width + p.1) * 3]?,
      img.pixels[(p.2 * img.width + p.1) * 3 + 1]?,
      img.pixels[(p.2 * img.width + p.1) * 3 + 2]? with
  | some r, some g, some b => some ⟨r, g, b⟩
  | _, _, _ => none

/-- `Image::color_at_mut` followed by the 3-byte store `*... = col`
(src/main.rs:280-284 and 268-272): same flat-offset bound as `color_at`,
then the three bytes are overwritten. -/
def Image.setColorAt (img : Image) (p : Point) (c : Color) : Option Image :=
  if (p.2 * img.width + p.1) * 3 + 3 ≤ img.pixels.length then
    some { img with
      pixels := ((img.pixels.set ((p.2 * img.width + p.1) * 3) c.r).set
        ((p.2 * img.width + p.1) * 3 + 1) c.g).set
        ((p.2 * img.width + p.1) * 3 + 2) c.b }
  else none

/-- `Image::apply` (src/main.rs:268-272): sequential in-place writes of the
change set. -/
def Image.apply : Image → List (Point × Color) → Option Image
  | img, [] => some img
  | img, (p, c) :: rest => (img.setColorAt p c).bind fun img2 => img2.apply rest

/-- `Image::loss_delta` (src/main.rs:242-259): for each `(pos, new_col)`
occurrence in the change set, `pixel_loss(target[pos], new_col) -
pixel_loss(target[pos], approx[pos])`, summed over the set.  Duplicated
positions contribute once per occurrence, exactly as in the source. -/
def Image.loss_delta (target approx : Image) : List (Point × Color) → Option ℤ
  | [] => some 0
  | (p, c) :: rest => do
    let tc ← target.color_at p
    let ac ← approx.color_at p
    let d ← Image.loss_delta target approx rest
    pure (Image.pixel_loss tc c - Image.pixel_loss tc ac + d)

/-- `color_at` with the panic case defaulted, used to state loss sums. -/
def Image.colorAtD (img : Image) (p : Point) : Color :=
  (img.color_at p).getD ⟨0, 0, 0⟩

/-- Row-major enumeration of the nested `for y in 0..h { for x in 0..w }`
loops: index `k = y*w + x` maps to `(x, y)`. -/
def positionsList (w h : ℕ) : List Point :=
  (List.range (w * h)).map fun k => (k % w, k / w)

/-- Total squared-error loss of `img` against `target` over a list of
positions. -/
def lossOver (target img : Image) (ps : List Point) : ℤ :=
  (ps.map fun p => Image.pixel_loss (target.colorAtD p) (img.colorAtD p)).sum

/-- Total squared-error loss of `img` against `target` over the full image. -/
def totalLoss (target img : Image) : ℤ :=
  lossOver target img (positionsList target.width target.height)

/-- The eight octant-symmetric points emitted per loop iteration of
`generate_circle_points` (src/main.rs:187-196), in source order. -/
def octantPoints (xc yc x y : ℤ) : List (ℤ × ℤ) :=
  [(xc + x, yc + y), (xc - x, yc + y), (xc + x, yc - y), (xc - x, yc - y),
   (xc + y, yc + x), (xc - y, yc + x), (xc + y, yc - x), (xc - y, yc - x)]

/-- The `while x <= y` loop of `generate_circle_points` (src/main.rs:186-206)
on the loop state `(x, y, d)`.  The extra fuel argument makes the recursion
structural (so that it reduces in the kernel); `x` increases by one per
iteration while `y` never increases, so `(y + 1 - x).toNat` bounds the
remaining iteration count and `circleLoopF_fuel` below shows that any fuel
at least that large — as supplied by `generate_circle_points` — never
truncates the loop. -/
def circleLoopF (xc yc : ℤ) : ℕ → ℤ → ℤ → ℤ → List (ℤ × ℤ)
  | 0, _, _, _ => []
  | fuel + 1, x, y, d =>
    if x ≤ y then
      octantPoints xc yc x y ++
        (if d < 0 then circleLoopF xc yc fuel (x + 1) y (d + 4 * x + 6)
         else circleLoopF xc yc fuel (x + 1) (y - 1) (d + 4 * (x - y) + 10))
    else []

/-- Fuel irrelevance: any fuel at least the remaining iteration count yields
the same point list, so the fuel in `generate_circle_points` is inert. -/
theorem circleLoopF_fuel (xc yc : ℤ) :
    ∀ f1 f2 x y d, (y + 1 - x).toNat ≤ f1 → (y + 1 - x).toNat ≤ f2 →
      circleLoopF xc yc f1 x y d = circleLoopF xc yc f2 x y d := by
  intro f1
  induction f1 with
  | zero =>
    intro f2 x y d h1 h2
    have hxy : ¬ x ≤ y := by omega
    cases f2 with
    | zero => rfl
    | succ f2 => simp [circleLoopF, hxy]
  | succ f1 ih =>
    intro f2 x y d h1 h2
    cases f2 with
    | zero =>
      have hxy : ¬ x ≤ y := by omega
      simp [circleLoopF, hxy]
    | succ f2 =>
      simp only [circleLoopF]
      by_cases hxy : x ≤ y
      · simp only [if_pos hxy]
        by_cases hd : d < 0
        · rw [if_pos hd, if_pos hd, ih f2 (x + 1) y _ (by omega) (by omega)]
        · rw [if_neg hd, if_neg hd,
            ih f2 (x + 1) (y - 1) _ (by omega) (by omega)]
      · simp [hxy]

/-- `generate_circle_points` (src/main.rs:180-208): midpoint-circle
rasterizer, initial state `x = 0, y = r, d = 3 - 2r`. -/
def generate_circle_points (xc yc r : ℤ) : List (ℤ × ℤ) :=
  circleLoopF xc yc (r + 1).toNat 0 r (3 - 2 * r)

/-- The eight octant reflections of the offset `(dx, dy)` about the center:
`(cx ± dx, cy ± dy)` and `(cx ± dy, cy ± dx)`. -/
def octantReflections (xc yc dx dy : ℤ) : List (ℤ × ℤ) :=
  [(xc + dx, yc + dy), (xc - dx, yc + dy), (xc + dx, yc - dy),
   (xc - dx, yc - dy), (xc + dy, yc + dx), (xc - dy, yc + dx),
   (xc + dy, yc - dx), (xc - dy, yc - dx)]

set_option maxHeartbeats 2000000 in
/-- One emitted block is closed under the eight octant reflections. -/
theorem octantPoints_symm (xc yc x y dx dy : ℤ)
    (h : (xc + dx, yc + dy) ∈ octantPoints xc yc x y) :
    ∀ q ∈ octantReflections xc yc dx dy, q ∈ octantPoints xc yc x y := by
  simp only [octantPoints, List.mem_cons, List.not_mem_nil, or_false,
    Prod.mk.injEq] at h
  intro q hq
  simp only [octantReflections, List.mem_cons, List.not_mem_nil, or_false]
    at hq
  rcases h with ⟨h1, h2⟩ | ⟨h1, h2⟩ | ⟨h1, h2⟩ | ⟨h1, h2⟩ | ⟨h1, h2⟩ |
    ⟨h1, h2⟩ | ⟨h1, h2⟩ | ⟨h1, h2⟩
  · obtain rfl : x = dx := by omega
    obtain rfl : y = dy := by omega
    rcases hq with rfl | rfl | rfl | rfl | rfl | rfl | rfl | rfl <;>
      simp only [octantPoints, List.mem_cons, List.not_mem_nil, or_false,
        Prod.mk.injEq, true_and, and_true, true_or, or_true] <;> omega
  · obtain rfl : -x = dx := by omega
    obtain rfl : y = dy := by omega
    rcases hq with rfl | rfl | rfl | rfl | rfl | rfl | rfl | rfl <;>
      simp only [octantPoints, List.mem_cons, List.not_mem_nil, or_false,
        Prod.mk.injEq, true_and, and_true, true_or, or_true] <;> omega
  · obtain rfl : x = dx := by omega
    obtain rfl : -y = dy := by omega
    rcases hq with rfl | rfl | rfl | rfl | rfl | rfl | rfl | rfl <;>
      simp only [octantPoints, List.mem_cons, List.not_mem_nil, or_false,
        Prod.mk.injEq, true_and, and_true, true_or, or_true] <;> omega
  · obtain rfl : -x = dx := by omega
    obtain rfl : -y = dy := by omega
    rcases hq with rfl | rfl | rfl | rfl | rfl | rfl | rfl | rfl <;>
      simp only [octantPoints, List.mem_cons, List.not_mem_nil, or_false,
        Prod.mk.injEq, true_and, and_true, true_or, or_true] <;> omega
  · obtain rfl : y = dx := by omega
    obtain rfl : x = dy := by omega
    rcases hq with rfl | rfl | rfl | rfl | rfl | rfl | rfl | rfl <;>
      simp only [octantPoints, List.mem_cons, List.not_mem_nil, or_false,
        Prod.mk.injEq, true_and, and_true, true_or, or_true] <;> omega
  · obtain rfl : -y = dx := by omega
    obtain rfl : x = dy := by omega
    rcases hq with rfl | rfl | rfl | rfl | rfl | rfl | rfl | rfl <;>
      simp only [octantPoints, List.mem_cons, List.not_mem_nil, or_false,
        Prod.mk.injEq, true_and, and_true, true_or, or_true] <;> omega
  · obtain rfl : y = dx := by omega
    obtain rfl : -x = dy := by omega
    rcases hq with rfl | rfl | rfl | rfl | rfl | rfl | rfl | rfl <;>
      simp only [octantPoints, List.mem_cons, List.not_mem_nil, or_false,
        Prod.mk.injEq, true_and, and_true, true_or, or_true] <;> omega
  · obtain rfl : -y = dx := by omega
    obtain rfl : -x = dy := by omega
    rcases hq with rfl | rfl | rfl | rfl | rfl | rfl | rfl | rfl <;>
      simp only [octantPoints, List.mem_cons, List.not_mem_nil, or_false,
        Prod.mk.injEq, true_and, and_true, true_or, or_true] <;> omega

/-- Every emitted point's eight octant reflections are also emitted: each
loop iteration emits a reflection-closed block. -/
theorem circleLoopF_symm (xc yc : ℤ) :
    ∀ fuel x y d dx dy,
      (xc + dx, yc + dy) ∈ circleLoopF xc yc fuel x y d →
      ∀ q ∈ octantReflections xc yc dx dy, q ∈ circleLoopF xc yc fuel x y d := by
  intro fuel
  induction fuel with
  | zero => intro x y d dx dy h; simp [circleLoopF] at h
  | succ fuel ih =>
    intro x y d dx dy h q hq
    simp only [circleLoopF] at h ⊢
    by_cases hxy : x ≤ y
    · rw [if_pos hxy] at h ⊢
      rcases List.mem_append.mp h with hoct | hrec
      · exact List.mem_append_left _ (octantPoints_symm xc yc x y dx dy hoct q hq)
      · by_cases hd : d < 0
        · rw [if_pos hd] at hrec ⊢
          exact List.mem_append_right _ (ih _ _ _ dx dy hrec q hq)
        · rw [if_neg hd] at hrec ⊢
          exact List.mem_append_right _ (ih _ _ _ dx dy hrec q hq)
    · rw [if_neg hxy] at h
      simp at h

/-- Parity step used by the loop invariant: the `d >= 0` branch condition
forces `e >= y - 2x - 1` for the integer `e` with `d = 2e + 4x - 2y + 3`. -/
theorem decision_ge_step (e x y : ℤ) (h : 0 ≤ 2 * e + 4 * x - 2 * y + 3) :
    y - 2 * x - 1 ≤ e := by omega

/-- Parity step: the `d < 0` branch condition forces `e <= y - 2x - 2`. -/
theorem decision_lt_step (e x y : ℤ) (h : 2 * e + 4 * x - 2 * y + 3 < 0) :
    e ≤ y - 2 * x - 2 := by omega

/-- Loop invariant of the midpoint rasterizer: along the run of the loop,
`d = 2(x² + y² - r²) + 4x - 2y + 3`, and at every emitting state (`x ≤ y`)
the discretization error `e = x² + y² - r²` lies in `[-y, y - 1]`.  Hence
every emitted point has offsets bounded by `r` and `|dx² + dy² - r²| ≤ r`. -/
theorem circleLoopF_bound (xc yc r : ℤ) :
    ∀ fuel x y d, 0 ≤ x → y ≤ r →
      d = 2 * (x ^ 2 + y ^ 2 - r ^ 2) + 4 * x - 2 * y + 3 →
      (x ≤ y → x ^ 2 + y ^ 2 - r ^ 2 ≤ y - 1 ∧ -y ≤ x ^ 2 + y ^ 2 - r ^ 2) →
      ∀ p ∈ circleLoopF xc yc fuel x y d,
        -r ≤ p.1 - xc ∧ p.1 - xc ≤ r ∧ -r ≤ p.2 - yc ∧ p.2 - yc ≤ r ∧
        -r ≤ (p.1 - xc) ^ 2 + (p.2 - yc) ^ 2 - r ^ 2 ∧
        (p.1 - xc) ^ 2 + (p.2 - yc) ^ 2 - r ^ 2 ≤ r := by
  intro fuel
  induction fuel with
  | zero => intro x y d _ _ _ _ p hp; simp [circleLoopF] at hp
  | succ fuel ih =>
    intro x y d hx hyr hd hinv p hp
    simp only [circleLoopF] at hp
    by_cases hxy : x ≤ y
    · rw [if_pos hxy] at hp
      obtain ⟨hu, hl⟩ := hinv hxy
      rcases List.mem_append.mp hp with hoct | hrec
      · simp only [octantPoints, List.mem_cons, List.not_mem_nil, or_false]
          at hoct
        rcases hoct with rfl | rfl | rfl | rfl | rfl | rfl | rfl | rfl <;>
          refine ⟨?_, ?_, ?_, ?_, ?_, ?_⟩ <;> ring_nf <;> ring_nf at hu hl <;>
          linarith
      · by_cases hdlt : d < 0
        · rw [if_pos hdlt] at hrec
          have hcond : x ^ 2 + y ^ 2 - r ^ 2 ≤ y - 2 * x - 2 :=
            decision_lt_step _ x y (by rw [hd] at hdlt; linarith)
          refine ih (x + 1) y (d + 4 * x + 6) (by linarith) hyr
            (by rw [hd]; ring) (fun h1 => ⟨?_, ?_⟩) p hrec
          · have : (x + 1) ^ 2 = x ^ 2 + 2 * x + 1 := by ring
            linarith
          · have : (x + 1) ^ 2 = x ^ 2 + 2 * x + 1 := by ring
            linarith
        · rw [if_neg hdlt] at hrec
          have hcond : y - 2 * x - 1 ≤ x ^ 2 + y ^ 2 - r ^ 2 :=
            decision_ge_step _ x y (by rw [hd] at hdlt; linarith)
          refine ih (x + 1) (y - 1) (d + 4 * (x - y) + 10) (by linarith)
            (by linarith) (by rw [hd]; ring) (fun h1 => ⟨?_, ?_⟩) p hrec
          · have e1 : (x + 1) ^ 2 = x ^ 2 + 2 * x + 1 := by ring
            have e2 : (y - 1) ^ 2 = y ^ 2 - 2 * y + 1 := by ring
            linarith
          · have e1 : (x + 1) ^ 2 = x ^ 2 + 2 * x + 1 := by ring
            have e2 : (y - 1) ^ 2 = y ^ 2 - 2 * y + 1 := by ring
            linarith
    · rw [if_neg hxy] at hp
      simp at hp

/-- C5: for every center and radius ≥ 1, every point emitted by
`generate_circle_points` has all eight octant reflections of its offset
also emitted, both offset components bounded by `r`, and
`dx² + dy²` within `r` of `r²` (the discretization tolerance realized by
the midpoint rule with decision `3 - 2r`). -/
theorem generate_circle_points_symm_bound (xc yc r : ℤ) (hr : 1 ≤ r)
    (p : ℤ × ℤ) (hp : p ∈ generate_circle_points xc yc r) :
    (∀ q ∈ octantReflections xc yc (p.1 - xc) (p.2 - yc),
      q ∈ generate_circle_points xc yc r) ∧
    |p.1 - xc| ≤ r ∧ |p.2 - yc| ≤ r ∧
    |(p.1 - xc) ^ 2 + (p.2 - yc) ^ 2 - r ^ 2| ≤ r := by
  have hbig := circleLoopF_bound xc yc r ((r + 1).toNat) 0 r (3 - 2 * r)
    le_rfl le_rfl (by ring) (fun _ => ⟨by linarith, by linarith⟩) p hp
  obtain ⟨b1, b2, b3, b4, b5, b6⟩ := hbig
  refine ⟨?_, abs_le.mpr ⟨b1, b2⟩, abs_le.mpr ⟨b3, b4⟩, abs_le.mpr ⟨b5, b6⟩⟩
  have hpe : (xc + (p.1 - xc), yc + (p.2 - yc)) = p := by
    obtain ⟨p1, p2⟩ := p
    simp only [Prod.mk.injEq]
    constructor <;> ring
  exact circleLoopF_symm xc yc ((r + 1).toNat) 0 r (3 - 2 * r)
    (p.1 - xc) (p.2 - yc) (by rw [hpe]; exact hp)

/-- Witness for C5 at center `(0,0)`, radius `1`, emitted point `(0, 1)`. -/
theorem generate_circle_points_symm_bound_witness :
    (∀ q ∈ octantReflections 0 0 ((0, 1) : ℤ × ℤ).1 ((0, 1) : ℤ × ℤ).2,
      q ∈ generate_circle_points 0 0 1) ∧
    |((0, 1) : ℤ × ℤ).1 - 0| ≤ 1 ∧ |((0, 1) : ℤ × ℤ).2 - 0| ≤ 1 ∧
    |(((0, 1) : ℤ × ℤ).1 - 0) ^ 2 + (((0, 1) : ℤ × ℤ).2 - 0) ^ 2 - 1 ^ 2| ≤ 1 := by
  have h := generate_circle_points_symm_bound 0 0 1 (by decide)
    ((0, 1) : ℤ × ℤ) (by decide)
  simpa using h

/-- Sequential effectful map over `Option` (the semantics of iterating a
fallible accessor, as the Rust iterator chains do). -/
def seqMap {α β : Type} (f : α → Option β) : List α → Option (List β)
  | [] => some []
  | a :: l => do
    let b ← f a
    let bs ← seqMap f l
    pure (b :: bs)

/-- The bounds filter used on rasterized points (src/main.rs:121-123 and
165-167): `x >= 0 && y >= 0 && x < width && y < height`. -/
def inBoundsZ (w h : ℕ) (p : ℤ × ℤ) : Bool :=
  decide (0 ≤ p.1) && decide (0 ≤ p.2) &&
    decide (p.1 < (w : ℤ)) && decide (p.2 < (h : ℤ))

/-- Saturating `as u8` cast of an `f32` value: Rust float-to-int `as` casts
round toward zero and saturate; for the nonnegative values cast in this
program this is `min 255 ∘ floor`. -/
def f32toU8 (q : ℚ) : ℕ :=
  if q ≤ 0 then 0 else if 255 ≤ q then 255 else (⌊q⌋).toNat

/-- The center-color computation of `calculate_weighted_color`
(src/main.rs:108-116): the target color at the center when in bounds, else
black. -/
def centerColorOf (target : Image) (center_x center_y : ℤ) : Option Color :=
  if 0 ≤ center_x ∧ 0 ≤ center_y ∧ center_x < (target.width : ℤ) ∧
      center_y < (target.height : ℤ) then
    target.color_at (center_x.toNat, center_y.toNat)
  else
    some ⟨0, 0, 0⟩

/-- `calculate_weighted_color` (src/main.rs:101-150).  `f32` arithmetic is
modeled exactly over `ℚ`.  The `max_radius = 0` weight branch models the
IEEE behavior of the source for the `radius ≥ 1` arguments the program
uses: `radius / 0.0 = +∞` and `(+∞).min(1.0) = 1.0`. -/
def calculate_weighted_color (target : Image) (center_x center_y radius : ℤ)
    (circle_points : List (ℤ × ℤ)) : Option Color := do
  let center_color ← centerColorOf target center_x center_y
  let valid := circle_points.filter (inBoundsZ target.width target.height)
  let colors ← seqMap (fun p => target.color_at (p.1.toNat, p.2.toNat)) valid
  if colors.length = 0 then
    pure center_color
  else
    let s := colors.foldl
      (fun acc c => (acc.1 + (c.r : ℚ), acc.2.1 + (c.g : ℚ), acc.2.2 + (c.b : ℚ)))
      (0, 0, 0)
    let n : ℚ := (colors.length : ℚ)
    let edge : Color := ⟨f32toU8 (s.1 / n), f32toU8 (s.2.1 / n), f32toU8 (s.2.2 / n)⟩
    let weight : ℚ :=
      if ((target.width.min target.height / 4 : ℕ) : ℚ) = 0 then 1
      else min ((radius : ℚ) / ((target.width.min target.height / 4 : ℕ) : ℚ)) 1
    pure ⟨f32toU8 ((1 - weight) * (center_color.r : ℚ) + weight * (edge.r : ℚ)),
          f32toU8 ((1 - weight) * (center_color.g : ℚ) + weight * (edge.g : ℚ)),
          f32toU8 ((1 - weight) * (center_color.b : ℚ) + weight * (edge.b : ℚ))⟩

/-- The estimator exactly as claim C6 words it: `edgeColor` is the exact
per-channel arithmetic mean of the in-bounds boundary colors, and only the
final interpolation is truncated to `u8`. -/
def weightedColorSpec (target : Image) (center_x center_y radius : ℤ)
    (circle_points : List (ℤ × ℤ)) : Option Color := do
  let center_color ← centerColorOf target center_x center_y
  let valid := circle_points.filter (inBoundsZ target.width target.height)
  let colors ← seqMap (fun p => target.color_at (p.1.toNat, p.2.toNat)) valid
  if colors.length = 0 then
    pure center_color
  else
    let n : ℚ := (colors.length : ℚ)
    let er : ℚ := (colors.map fun c => (c.r : ℚ)).sum / n
    let eg : ℚ := (colors.map fun c => (c.g : ℚ)).sum / n
    let eb : ℚ := (colors.map fun c => (c.b : ℚ)).sum / n
    let weight : ℚ :=
      if ((target.width.min target.height / 4 : ℕ) : ℚ) = 0 then 1
      else min ((radius : ℚ) / ((target.width.min target.height / 4 : ℕ) : ℚ)) 1
    pure ⟨f32toU8 ((1 - weight) * (center_color.r : ℚ) + weight * er),
          f32toU8 ((1 - weight) * (center_color.g : ℚ) + weight * eg),
          f32toU8 ((1 - weight) * (center_color.b : ℚ) + weight * eb)⟩

/-- Claim C6 as amended: identical to `weightedColorSpec` except that the
per-channel edge mean is truncated to a `u8` *before* the interpolation, as
the source does. -/
def weightedColorAmended (target : Image) (center_x center_y radius : ℤ)
    (circle_points : List (ℤ × ℤ)) : Option Color := do
  let center_color ← centerColorOf target center_x center_y
  let valid := circle_points.filter (inBoundsZ target.width target.height)
  let colors ← seqMap (fun p => target.color_at (p.1.toNat, p.2.toNat)) valid
  if colors.length = 0 then
    pure center_color
  else
    let n : ℚ := (colors.length : ℚ)
    let er : ℕ := f32toU8 ((colors.map fun c => (c.r : ℚ)).sum / n)
    let eg : ℕ := f32toU8 ((colors.map fun c => (c.g : ℚ)).sum / n)
    let eb : ℕ := f32toU8 ((colors.map fun c => (c.b : ℚ)).sum / n)
    let weight : ℚ :=
      if ((target.width.min target.height / 4 : ℕ) : ℚ) = 0 then 1
      else min ((radius : ℚ) / ((target.width.min target.height / 4 : ℕ) : ℚ)) 1
    pure ⟨f32toU8 ((1 - weight) * (center_color.r : ℚ) + weight * (er : ℚ)),
          f32toU8 ((1 - weight) * (center_color.g : ℚ) + weight * (eg : ℚ)),
          f32toU8 ((1 - weight) * (center_color.b : ℚ) + weight * (eb : ℚ))⟩

/-- The running triple fold of `calculate_weighted_color` computes the three
per-channel sums. -/
theorem foldl_channel_sums (l : List Color) :
    ∀ a b c : ℚ,
      l.foldl
        (fun acc cc =>
          (acc.1 + (cc.r : ℚ), acc.2.1 + (cc.g : ℚ), acc.2.2 + (cc.b : ℚ)))
        (a, b, c) =
      (a + (l.map fun cc => (cc.r : ℚ)).sum, b + (l.map fun cc => (cc.g : ℚ)).sum,
        c + (l.map fun cc => (cc.b : ℚ)).sum) := by
  induction l with
  | nil => intro a b c; simp
  | cons hd tl ih =>
    intro a b c
    simp only [List.foldl_cons, List.map_cons, List.sum_cons, ih]
    refine Prod.ext ?_ (Prod.ext ?_ ?_) <;> simp <;> ring

/-- Target image for the C6 counterexample: 12×12, red channel 4 at (0,0)
and 5 at (1,0), black elsewhere. -/
def cwT : Image :=
  ⟨12, 12, (List.range 432).map fun i => if i = 0 then 4 else if i = 3 then 5 else 0⟩

/-- Boundary-point list for the C6 counterexample. -/
def cwPts : List (ℤ × ℤ) := [(0, 0), (1, 0)]

set_option maxRecDepth 100000 in
/-- C6 counterexample: at center (5,5), radius 2 on `cwT` (so `weight = 2/3`
and the edge mean is 4.5 in the red channel), the source truncates the mean
to 4 before blending and returns red 2, while the claim's formula blends the
exact mean and returns red 3. -/
theorem calculate_weighted_color_cex :
    calculate_weighted_color cwT 5 5 2 cwPts = some ⟨2, 0, 0⟩ ∧
    weightedColorSpec cwT 5 5 2 cwPts = some ⟨3, 0, 0⟩ ∧
    ¬ calculate_weighted_color cwT 5 5 2 cwPts = weightedColorSpec cwT 5 5 2 cwPts := by
  have hc : centerColorOf cwT 5 5 = some ⟨0, 0, 0⟩ := by decide
  have hm : seqMap (fun p => cwT.color_at (p.1.toNat, p.2.toNat))
      (cwPts.filter (inBoundsZ cwT.width cwT.height)) =
      some [⟨4, 0, 0⟩, ⟨5, 0, 0⟩] := by decide
  have h1 : calculate_weighted_color cwT 5 5 2 cwPts = some ⟨2, 0, 0⟩ := by
    rw [calculate_weighted_color, hc]
    simp only [Option.bind_eq_bind, Option.some_bind, hm]
    norm_num [f32toU8, min_def, cwT, Int.toNat]
  have h2 : weightedColorSpec cwT 5 5 2 cwPts = some ⟨3, 0, 0⟩ := by
    rw [weightedColorSpec, hc]
    simp only [Option.bind_eq_bind, Option.some_bind, hm]
    norm_num [f32toU8, min_def, cwT, Int.toNat]
  refine ⟨h1, h2, ?_⟩
  rw [h1, h2]
  simp

/-- C6 as amended: the source estimator equals the claim's formula with the
edge mean truncated to `u8` per channel before interpolation (and it still
returns exactly the center color when no boundary point is in bounds). -/
theorem calculate_weighted_color_amended (target : Image)
    (center_x center_y radius : ℤ) (circle_points : List (ℤ × ℤ)) :
    calculate_weighted_color target center_x center_y radius circle_points =
      weightedColorAmended target center_x center_y radius circle_points := by
  unfold calculate_weighted_color weightedColorAmended
  cases hc : centerColorOf target center_x center_y with
  | none => simp [hc]
  | some cc =>
    simp only [hc, Option.bind_eq_bind, Option.some_bind]
    cases hm : seqMap
        (fun p => target.color_at (p.1.toNat, p.2.toNat))
        (circle_points.filter (inBoundsZ target.width target.height)) with
    | none => simp
    | some colors =>
      simp only [Option.some_bind]
      by_cases hlen : colors.length = 0
      · simp [hlen]
      · simp only [hlen, if_false, foldl_channel_sums, zero_add]

/-- Witness: the amended equality evaluated at the counterexample input. -/
theorem calculate_weighted_color_amended_witness :
    calculate_weighted_color cwT 5 5 2 cwPts =
      weightedColorAmended cwT 5 5 2 cwPts :=
  calculate_weighted_color_amended cwT 5 5 2 cwPts

/-- `color_at` succeeds exactly when the 3-byte slice at the flat offset
fits in the buffer — the only check the source performs. -/
theorem color_at_isSome_iff (img : Image) (p : Point) :
    (img.color_at p).isSome ↔
      (p.2 * img.width + p.1) * 3 + 3 ≤ img.pixels.length := by
  unfold Image.color_at
  by_cases h : (p.2 * img.width + p.1) * 3 + 3 ≤ img.pixels.length
  · rw [List.getElem?_eq_getElem (by omega), List.getElem?_eq_getElem (by omega),
      List.getElem?_eq_getElem (by omega)]
    simpa using h
  · have h2 : img.pixels[(p.2 * img.width + p.1) * 3 + 2]? = none :=
      List.getElem?_eq_none (by omega)
    rcases h0 : img.pixels[(p.2 * img.width + p.1) * 3]? with _ | v0 <;>
      rcases h1 : img.pixels[(p.2 * img.width + p.1) * 3 + 1]? with _ | v1 <;>
      simp [h0, h1, h2, h]

/-- `setColorAt` succeeds exactly when `color_at` does, and the result is
the triple byte update with unchanged dimensions. -/
theorem setColorAt_eq (img img2 : Image) (p : Point) (c : Color)
    (h : img.setColorAt p c = some img2) :
    img2.width = img.width ∧ img2.height = img.height ∧
    (p.2 * img.width + p.1) * 3 + 3 ≤ img.pixels.length ∧
    img2.pixels = ((img.pixels.set ((p.2 * img.width + p.1) * 3) c.r).set
      ((p.2 * img.width + p.1) * 3 + 1) c.g).set
      ((p.2 * img.width + p.1) * 3 + 2) c.b := by
  unfold Image.setColorAt at h
  by_cases hb : (p.2 * img.width + p.1) * 3 + 3 ≤ img.pixels.length
  · rw [if_pos hb] at h
    obtain rfl := Option.some_injective _ h.symm
    exact ⟨rfl, rfl, hb, rfl⟩
  · rw [if_neg hb] at h
    exact absurd h (by simp)

/-- Distinct coordinates with in-range x-components map to distinct flat
pixel indices. -/
theorem flatIndex_inj (w x1 y1 x2 y2 : ℕ) (hx1 : x1 < w) (hx2 : x2 < w)
    (h : y1 * w + x1 = y2 * w + x2) : x1 = x2 ∧ y1 = y2 := by
  have hw : 0 < w := by omega
  have e1 : x1 + y1 * w = x2 + y2 * w := by
    rw [Nat.add_comm x1, Nat.add_comm x2]; exact h
  have ex : x1 = x2 := by
    have := congrArg (· % w) e1
    simpa [Nat.add_mul_mod_self_right, Nat.mod_eq_of_lt hx1,
      Nat.mod_eq_of_lt hx2] using this
  refine ⟨ex, ?_⟩
  have := congrArg (· / w) e1
  simpa [Nat.add_mul_div_right _ _ hw, Nat.div_eq_of_lt hx1,
    Nat.div_eq_of_lt hx2] using this

/-- Writing one pixel leaves every other in-x-range coordinate's bytes
unchanged. -/
theorem setColorAt_frame (img img2 : Image) (p q : Point) (c : Color)
    (h : img.setColorAt p c = some img2) (hpx : p.1 < img.width)
    (hqx : q.1 < img.width) (hne : q ≠ p) :
    img2.color_at q = img.color_at q := by
  obtain ⟨hw, hh, hb, hpix⟩ := setColorAt_eq img img2 p c h
  have hflat : q.2 * img.width + q.1 ≠ p.2 * img.width + p.1 := by
    intro he
    obtain ⟨ex, ey⟩ := flatIndex_inj img.width q.1 q.2 p.1 p.2 hqx hpx he
    exact hne (Prod.ext ex ey)
  unfold Image.color_at
  rw [hw, hpix]
  have e0 : ∀ j, j = q.2 * img.width + q.1 → ∀ i, i = p.2 * img.width + p.1 →
      ((((img.pixels.set (i * 3) c.r).set (i * 3 + 1) c.g).set
        (i * 3 + 2) c.b)[j * 3]? = img.pixels[j * 3]? ∧
      (((img.pixels.set (i * 3) c.r).set (i * 3 + 1) c.g).set
        (i * 3 + 2) c.b)[j * 3 + 1]? = img.pixels[j * 3 + 1]? ∧
      (((img.pixels.set (i * 3) c.r).set (i * 3 + 1) c.g).set
        (i * 3 + 2) c.b)[j * 3 + 2]? = img.pixels[j * 3 + 2]?) := by
    intro j hj i hi
    have hij : i ≠ j := by omega
    refine ⟨?_, ?_, ?_⟩ <;>
      rw [List.getElem?_set_ne (by omega), List.getElem?_set_ne (by omega),
        List.getElem?_set_ne (by omega)]
  obtain ⟨e1, e2, e3⟩ := e0 _ rfl _ rfl
  rw [e1, e2, e3]

/-- C9: `Image::apply` over a change set of in-bounds positions preserves
the dimensions and leaves every pixel at a position not occurring in the
change set byte-identical. -/
theorem apply_frame (cs : List (Point × Color)) :
    ∀ img img2 : Image, img.apply cs = some img2 →
    (∀ pc ∈ cs, pc.1.1 < img.width ∧ pc.1.2 < img.height) →
    img2.width = img.width ∧ img2.height = img.height ∧
    ∀ q : Point, q.1 < img.width → q.2 < img.height →
      (∀ pc ∈ cs, pc.1 ≠ q) → img2.color_at q = img.color_at q := by
  induction cs with
  | nil =>
    intro img img2 h _
    obtain rfl := Option.some_injective _ h.symm
    exact ⟨rfl, rfl, fun _ _ _ _ => rfl⟩
  | cons hd tl ih =>
    intro img img2 h hin
    obtain ⟨p, c⟩ := hd
    simp only [Image.apply, Option.bind_eq_bind, Option.bind_eq_some] at h
    obtain ⟨img1, h1, h2⟩ := h
    obtain ⟨hw1, hh1, _, _⟩ := setColorAt_eq img img1 p c h1
    have hlen1 : img1.pixels.length = img.pixels.length := by
      obtain ⟨_, _, _, hpix⟩ := setColorAt_eq img img1 p c h1
      simp [hpix]
    have hin1 : ∀ pc ∈ tl, pc.1.1 < img1.width ∧ pc.1.2 < img1.height := by
      intro pc hpc
      rw [hw1, hh1]
      exact hin pc (List.mem_cons_of_mem _ hpc)
    obtain ⟨hw2, hh2, hframe⟩ := ih img1 img2 h2 hin1
    refine ⟨hw2.trans hw1, hh2.trans hh1, fun q hqx hqy hq => ?_⟩
    have hstep : img1.color_at q = img.color_at q :=
      setColorAt_frame img img1 p q c h1
        (hin (p, c) (List.mem_cons_self _ _)).1 hqx
        (fun he => hq (p, c) (List.mem_cons_self _ _) (by rw [he]))
    rw [← hstep]
    exact hframe q (by rw [hw1]; exact hqx) (by rw [hh1]; exact hqy)
      (fun pc hpc => hq pc (List.mem_cons_of_mem _ hpc))

/-- Witness for C9: a concrete 2×2 apply touching (0,0) leaves (1,1)
unchanged. -/
theorem apply_frame_witness :
    (Image.apply ⟨2, 2, [1, 2, 3, 4, 5, 6, 7, 8, 9, 10, 11, 12]⟩
        [((0, 0), ⟨9, 9, 9⟩)]).map
      (fun img2 => (img2.width, img2.height, img2.color_at (1, 1))) =
      some (2, 2, Image.color_at ⟨2, 2, [1, 2, 3, 4, 5, 6, 7, 8, 9, 10, 11, 12]⟩ (1, 1)) := by
  have happ : Image.apply ⟨2, 2, [1, 2, 3, 4, 5, 6, 7, 8, 9, 10, 11, 12]⟩
      [((0, 0), ⟨9, 9, 9⟩)] =
      some ⟨2, 2, [9, 9, 9, 4, 5, 6, 7, 8, 9, 10, 11, 12]⟩ := by decide
  have h := apply_frame [((0, 0), ⟨9, 9, 9⟩)]
    ⟨2, 2, [1, 2, 3, 4, 5, 6, 7, 8, 9, 10, 11, 12]⟩
    ⟨2, 2, [9, 9, 9, 4, 5, 6, 7, 8, 9, 10, 11, 12]⟩ happ (by decide)
  rw [happ]
  refine congrArg some ?_
  exact Prod.ext h.1 (Prod.ext h.2.1
    (h.2.2 (1, 1) (by decide) (by decide) (by decide)))

/-- Image for the C4 counterexample: 2×2, bytes 0..11. -/
def oobImg : Image := ⟨2, 2, [0, 1, 2, 3, 4, 5, 6, 7, 8, 9, 10, 11]⟩

/-- C4 counterexample: on a well-formed 2×2 image, the access at
`(x, y) = (2, 0)` has `x ≥ width`, yet `color_at` and `setColorAt` succeed
instead of failing, and silently address the pixel at `(0, 1)` — the source
checks only the flat offset `(y*width + x)*3`, not `x < width`. -/
theorem color_at_oob_cex :
    oobImg.WF ∧ 2 ≥ oobImg.width ∧
    Image.color_at oobImg (2, 0) = some ⟨6, 7, 8⟩ ∧
    Image.color_at oobImg (2, 0) = Image.color_at oobImg (0, 1) ∧
    (Image.setColorAt oobImg (2, 0) ⟨9, 9, 9⟩).isSome = true := by
  refine ⟨by decide, by decide, by decide, by decide, by decide⟩

/-- C4 as amended: under the buffer invariant, an access at `(x, y)` fails
fatally if and only if the flat index `y*width + x` lies outside the pixel
grid; in particular every access with `y ≥ height` fails, but an access
with `x ≥ width` whose flat index stays in range silently reads or writes
the pixel at flat index `y*width + x` (wrapping onto a later row). -/
theorem color_at_bounds_amended (img : Image) (hwf : img.WF) (x y : ℕ)
    (c : Color) :
    ((img.color_at (x, y)).isSome ↔ y * img.width + x < img.width * img.height) ∧
    ((img.setColorAt (x, y) c).isSome ↔ y * img.width + x < img.width * img.height) ∧
    (img.height ≤ y → img.color_at (x, y) = none ∧ img.setColorAt (x, y) c = none) := by
  have hset : (img.setColorAt (x, y) c).isSome ↔
      (y * img.width + x) * 3 + 3 ≤ img.pixels.length := by
    unfold Image.setColorAt
    by_cases hb : (y * img.width + x) * 3 + 3 ≤ img.pixels.length
    · simp [hb]
    · simp [hb]
  have hco := color_at_isSome_iff img (x, y)
  rw [Image.WF] at hwf
  have key : (y * img.width + x) * 3 + 3 ≤ img.pixels.length ↔
      y * img.width + x < img.width * img.height := by
    rw [hwf]
    constructor
    · intro h
      nlinarith
    · intro h
      nlinarith
  have hyb : img.height ≤ y → ¬ y * img.width + x < img.width * img.height := by
    intro hy hlt
    nlinarith
  refine ⟨hco.trans key, hset.trans key, fun hy => ⟨?_, ?_⟩⟩
  · have hns : ¬ (img.color_at (x, y)).isSome = true := by
      rw [hco, key]; exact hyb hy
    exact Option.not_isSome_iff_eq_none.mp hns
  · have hns : ¬ (img.setColorAt (x, y) c).isSome = true := by
      rw [hset, key]; exact hyb hy
    exact Option.not_isSome_iff_eq_none.mp hns

/-- Witness for the amended C4 at a concrete well-formed image. -/
theorem color_at_bounds_amended_witness :
    ((Image.color_at oobImg (1, 1)).isSome ↔ 1 * oobImg.width + 1 < oobImg.width * oobImg.height) ∧
    ((Image.setColorAt oobImg (1, 1) ⟨0, 0, 0⟩).isSome ↔
      1 * oobImg.width + 1 < oobImg.width * oobImg.height) ∧
    (oobImg.height ≤ 1 → Image.color_at oobImg (1, 1) = none ∧
      Image.setColorAt oobImg (1, 1) ⟨0, 0, 0⟩ = none) :=
  color_at_bounds_amended oobImg (by decide) 1 1 ⟨0, 0, 0⟩

/-- In-bounds coordinates give flat indices inside the pixel grid. -/
theorem flat_lt (w h x y : ℕ) (hx : x < w) (hy : y < h) : y * w + x < w * h := by
  nlinarith

/-- Under the buffer invariant, in-bounds accesses succeed. -/
theorem color_at_isSome_of_WF (img : Image) (hwf : img.WF) (p : Point)
    (hx : p.1 < img.width) (hy : p.2 < img.height) :
    (img.color_at p).isSome := by
  rw [color_at_isSome_iff, hwf]
  have := flat_lt img.width img.height p.1 p.2 hx hy
  omega

/-- Under the buffer invariant, in-bounds writes succeed. -/
theorem setColorAt_isSome_of_WF (img : Image) (hwf : img.WF) (p : Point)
    (c : Color) (hx : p.1 < img.width) (hy : p.2 < img.height) :
    (img.setColorAt p c).isSome := by
  have := flat_lt img.width img.height p.1 p.2 hx hy
  unfold Image.setColorAt
  rw [if_pos (by rw [hwf]; omega)]
  rfl

/-- `setColorAt` preserves well-formedness and dimensions. -/
theorem setColorAt_WF (img img2 : Image) (p : Point) (c : Color)
    (hwf : img.WF) (h : img.setColorAt p c = some img2) :
    img2.WF ∧ img2.width = img.width ∧ img2.height = img.height := by
  obtain ⟨hw, hh, _, hpix⟩ := setColorAt_eq img img2 p c h
  refine ⟨?_, hw, hh⟩
  rw [Image.WF, hpix, List.length_set, List.length_set, List.length_set, hw, hh]
  exact hwf

/-- After a successful write, reading the same coordinate returns the
written color. -/
theorem setColorAt_get (img img2 : Image) (p : Point) (c : Color)
    (h : img.setColorAt p c = some img2) : img2.color_at p = some c := by
  obtain ⟨cr, cg, cb⟩ := c
  obtain ⟨hw, hh, hb, hpix⟩ := setColorAt_eq img img2 p ⟨cr, cg, cb⟩ h
  unfold Image.color_at
  rw [hw, hpix]
  set o := (p.2 * img.width + p.1) * 3 with ho
  have hl1 : (img.pixels.set o cr).length = img.pixels.length :=
    List.length_set _ _ _
  have hl2 : ((img.pixels.set o cr).set (o + 1) cg).length =
      img.pixels.length := by rw [List.length_set, hl1]
  have e1 : (((img.pixels.set o cr).set (o + 1) cg).set (o + 2) cb)[o]? =
      some cr := by
    rw [List.getElem?_set_ne (by omega), List.getElem?_set_ne (by omega)]
    exact List.getElem?_set_self (by omega)
  have e2 : (((img.pixels.set o cr).set (o + 1) cg).set (o + 2) cb)[o + 1]? =
      some cg := by
    rw [List.getElem?_set_ne (by omega)]
    exact List.getElem?_set_self (by rw [hl1]; omega)
  have e3 : (((img.pixels.set o cr).set (o + 1) cg).set (o + 2) cb)[o + 2]? =
      some cb :=
    List.getElem?_set_self (by rw [hl2]; omega)
  rw [e1, e2, e3]

/-- `loss_delta` as the explicit per-occurrence sum, whenever every access
succeeds. -/
theorem loss_delta_eq_sum (target approx : Image) (cs : List (Point × Color))
    (h : ∀ pc ∈ cs, (target.color_at pc.1).isSome ∧ (approx.color_at pc.1).isSome) :
    Image.loss_delta target approx cs =
      some ((cs.map fun pc =>
        Image.pixel_loss (target.colorAtD pc.1) pc.2 -
          Image.pixel_loss (target.colorAtD pc.1) (approx.colorAtD pc.1)).sum) := by
  induction cs with
  | nil => simp [Image.loss_delta]
  | cons hd tl ih =>
    obtain ⟨p, c⟩ := hd
    obtain ⟨tc, htc⟩ := Option.isSome_iff_exists.mp
      (h (p, c) (List.mem_cons_self _ _)).1
    obtain ⟨ac, hac⟩ := Option.isSome_iff_exists.mp
      (h (p, c) (List.mem_cons_self _ _)).2
    have ihh := ih (fun pc hpc => h pc (List.mem_cons_of_mem _ hpc))
    simp only [Image.loss_delta, htc, hac, ihh, Option.bind_eq_bind,
      Option.some_bind, List.map_cons, List.sum_cons]
    have e1 : target.colorAtD p = tc := by simp only [Image.colorAtD, htc]; rfl
    have e2 : approx.colorAtD p = ac := by simp only [Image.colorAtD, hac]; rfl
    rw [e1, e2]
    exact congrArg some (by ring)

/-- Subtracting element-wise sums. -/
theorem sum_map_sub_int {α : Type} (l : List α) (f g : α → ℤ) :
    (l.map fun x => f x - g x).sum = (l.map f).sum - (l.map g).sum := by
  induction l with
  | nil => simp
  | cons a l ih => simp only [List.map_cons, List.sum_cons, ih]; ring

/-- Updating a summand at one position of a duplicate-free index list. -/
theorem sum_map_update {α : Type} (l : List α) (f g : α → ℤ) (p : α)
    (hl : l.Nodup) (hp : p ∈ l) (hfg : ∀ q ∈ l, q ≠ p → f q = g q) :
    (l.map f).sum = (l.map g).sum + (f p - g p) := by
  induction l with
  | nil => simp at hp
  | cons a l ih =>
    rcases List.mem_cons.mp hp with rfl | hp'
    · have hnotmem : p ∉ l := (List.nodup_cons.mp hl).1
      have : l.map f = l.map g :=
        List.map_congr_left fun q hq =>
          hfg q (List.mem_cons_of_mem _ hq) (fun he => hnotmem (he ▸ hq))
      simp only [List.map_cons, List.sum_cons, this]
      ring
    · have hne : a ≠ p := by
        intro he
        exact (List.nodup_cons.mp hl).1 (he ▸ hp')
      have ha : f a = g a := hfg a (List.mem_cons_self _ _) hne
      have := ih (List.nodup_cons.mp hl).2 hp'
        (fun q hq => hfg q (List.mem_cons_of_mem _ hq))
      simp only [List.map_cons, List.sum_cons, ha, this]
      ring

/-- The row-major position enumeration has no duplicates. -/
theorem positionsList_nodup (w h : ℕ) : (positionsList w h).Nodup := by
  apply List.Nodup.map _ (List.nodup_range _)
  intro a b hab
  simp only [Prod.mk.injEq] at hab
  calc a = w * (a / w) + a % w := (Nat.div_add_mod a w).symm
    _ = w * (b / w) + b % w := by rw [hab.1, hab.2]
    _ = b := Nat.div_add_mod b w

/-- Membership in the position enumeration is exactly in-boundedness. -/
theorem mem_positionsList (w h x y : ℕ) :
    (x, y) ∈ positionsList w h ↔ x < w ∧ y < h := by
  simp only [positionsList, List.mem_map, List.mem_range, Prod.mk.injEq]
  constructor
  · rintro ⟨k, hk, hx, hy⟩
    have hw : 0 < w := by
      rcases Nat.eq_zero_or_pos w with h0 | h0
      · subst h0; omega
      · exact h0
    subst hx; subst hy
    refine ⟨Nat.mod_lt _ hw, (Nat.div_lt_iff_lt_mul hw).mpr ?_⟩
    rw [mul_comm] at hk
    exact hk
  · rintro ⟨hx, hy⟩
    have hw : 0 < w := by omega
    refine ⟨y * w + x, flat_lt w h x y hx hy, ?_, ?_⟩
    · rw [show y * w + x = x + y * w by ring, Nat.add_mul_mod_self_right,
        Nat.mod_eq_of_lt hx]
    · rw [show y * w + x = x + y * w by ring, Nat.add_mul_div_right _ _ hw,
        Nat.div_eq_of_lt hx, Nat.zero_add]

/-- Indexing the position enumeration at `y*w + x` yields `(x, y)`. -/
theorem positionsList_get (w h x y : ℕ) (hx : x < w) (hy : y < h) :
    (positionsList w h)[y * w + x]? = some (x, y) := by
  have hw : 0 < w := by omega
  unfold positionsList
  rw [List.getElem?_map, List.getElem?_range (flat_lt w h x y hx hy)]
  refine congrArg some (Prod.ext ?_ ?_)
  · rw [show y * w + x = x + y * w by ring]
    simp only
    rw [Nat.add_mul_mod_self_right, Nat.mod_eq_of_lt hx]
  · rw [show y * w + x = x + y * w by ring]
    simp only
    rw [Nat.add_mul_div_right _ _ hw, Nat.div_eq_of_lt hx, Nat.zero_add]

/-- One in-bounds write shifts the total loss by exactly the per-pixel
delta at the written coordinate. -/
theorem totalLoss_setColorAt (t a a1 : Image) (p : Point) (c : Color)
    (hw : a.width = t.width) (hh : a.height = t.height)
    (hpx : p.1 < t.width) (hpy : p.2 < t.height)
    (h : a.setColorAt p c = some a1) :
    totalLoss t a1 = totalLoss t a +
      (Image.pixel_loss (t.colorAtD p) c -
        Image.pixel_loss (t.colorAtD p) (a.colorAtD p)) := by
  obtain ⟨p1, p2⟩ := p
  unfold totalLoss lossOver
  rw [sum_map_update (positionsList t.width t.height)
    (fun q => Image.pixel_loss (t.colorAtD q) (a1.colorAtD q))
    (fun q => Image.pixel_loss (t.colorAtD q) (a.colorAtD q)) (p1, p2)
    (positionsList_nodup _ _) ((mem_positionsList _ _ _ _).mpr ⟨hpx, hpy⟩)
    ?_]
  · have hget : a1.colorAtD (p1, p2) = c := by
      rw [Image.colorAtD, setColorAt_get a a1 (p1, p2) c h]; rfl
    rw [hget]
  · intro q hq hqne
    obtain ⟨q1, q2⟩ := q
    have hqb := (mem_positionsList t.width t.height q1 q2).mp hq
    have hfr : a1.color_at (q1, q2) = a.color_at (q1, q2) :=
      setColorAt_frame a a1 (p1, p2) (q1, q2) c h (by omega) (by omega) hqne
    simp only [Image.colorAtD, hfr]

/-- Applying a change set whose positions are pairwise distinct and in
bounds shifts the total loss by exactly the summed per-occurrence deltas. -/
theorem totalLoss_apply (cs : List (Point × Color)) :
    ∀ t a a2 : Image, (cs.map Prod.fst).Nodup →
    (∀ pc ∈ cs, pc.1.1 < t.width ∧ pc.1.2 < t.height) →
    a.width = t.width → a.height = t.height →
    a.apply cs = some a2 →
    totalLoss t a2 = totalLoss t a +
      (cs.map fun pc => Image.pixel_loss (t.colorAtD pc.1) pc.2 -
        Image.pixel_loss (t.colorAtD pc.1) (a.colorAtD pc.1)).sum := by
  induction cs with
  | nil =>
    intro t a a2 _ _ _ _ h
    obtain rfl := Option.some_injective _ h.symm
    simp
  | cons hd tl ih =>
    intro t a a2 hnd hin hw hh happ
    obtain ⟨p, c⟩ := hd
    simp only [Image.apply, Option.bind_eq_bind, Option.bind_eq_some] at happ
    obtain ⟨a1, h1, h2⟩ := happ
    obtain ⟨hw1, hh1, hb1, hpix1⟩ := setColorAt_eq a a1 p c h1
    have hpb := hin (p, c) (List.mem_cons_self _ _)
    rw [List.map_cons] at hnd
    have hnd' := List.nodup_cons.mp hnd
    have hstep := totalLoss_setColorAt t a a1 p c hw hh hpb.1 hpb.2 h1
    have htl := ih t a1 a2 hnd'.2
      (fun pc hpc => hin pc (List.mem_cons_of_mem _ hpc))
      (hw1.trans hw) (hh1.trans hh) h2
    have hsame : (tl.map fun pc => Image.pixel_loss (t.colorAtD pc.1) pc.2 -
        Image.pixel_loss (t.colorAtD pc.1) (a1.colorAtD pc.1)) =
        (tl.map fun pc => Image.pixel_loss (t.colorAtD pc.1) pc.2 -
          Image.pixel_loss (t.colorAtD pc.1) (a.colorAtD pc.1)) := by
      refine List.map_congr_left fun pc hpc => ?_
      have hne : pc.1 ≠ p := by
        intro he
        have hmem : pc.1 ∈ tl.map Prod.fst := List.mem_map_of_mem Prod.fst hpc
        rw [he] at hmem
        exact hnd'.1 hmem
      have hqb := hin pc (List.mem_cons_of_mem _ hpc)
      have hfr : a1.color_at pc.1 = a.color_at pc.1 :=
        setColorAt_frame a a1 p pc.1 c h1 (by rw [hw]; exact hpb.1)
          (by rw [hw]; exact hqb.1) hne
      simp only [Image.colorAtD, hfr]
    rw [List.map_cons, List.sum_cons, htl, hsame, hstep]
    ring

/-- After a successful `apply` with distinct in-bounds positions, each
written coordinate holds its assigned color. -/
theorem apply_get (cs : List (Point × Color)) :
    ∀ a a2 : Image, (cs.map Prod.fst).Nodup →
    (∀ pc ∈ cs, pc.1.1 < a.width ∧ pc.1.2 < a.height) →
    a.apply cs = some a2 →
    ∀ pc ∈ cs, a2.color_at pc.1 = some pc.2 := by
  induction cs with
  | nil => intro a a2 _ _ _ pc hpc; simp at hpc
  | cons hd tl ih =>
    intro a a2 hnd hin happ pc hpc
    obtain ⟨p, c⟩ := hd
    simp only [Image.apply, Option.bind_eq_bind, Option.bind_eq_some] at happ
    obtain ⟨a1, h1, h2⟩ := happ
    obtain ⟨hw1, hh1, hb1, hpix1⟩ := setColorAt_eq a a1 p c h1
    have hpb := hin (p, c) (List.mem_cons_self _ _)
    rw [List.map_cons] at hnd
    have hnd' := List.nodup_cons.mp hnd
    rcases List.mem_cons.mp hpc with rfl | hpc'
    · have hfr := apply_frame tl a1 a2 h2 (fun pc' hpc' => by
        rw [hw1, hh1]
        exact hin pc' (List.mem_cons_of_mem _ hpc'))
      have := hfr.2.2 p (by rw [hw1]; exact hpb.1) (by rw [hh1]; exact hpb.2)
        (fun pc' hpc' he => by
          have hmem : pc'.1 ∈ tl.map Prod.fst :=
            List.mem_map_of_mem Prod.fst hpc'
          rw [he] at hmem
          exact hnd'.1 hmem)
      rw [this]
      exact setColorAt_get a a1 p c h1
    · exact ih a1 a2 hnd'.2
        (fun pc'' hpc'' => by
          rw [hw1, hh1]
          exact hin pc'' (List.mem_cons_of_mem _ hpc'')) h2 pc hpc'

/-- A change set of in-bounds positions applies successfully on a
well-formed image. -/
theorem apply_isSome (cs : List (Point × Color)) :
    ∀ a : Image, a.WF →
    (∀ pc ∈ cs, pc.1.1 < a.width ∧ pc.1.2 < a.height) →
    ∃ a2, a.apply cs = some a2 ∧ a2.WF ∧ a2.width = a.width ∧
      a2.height = a.height := by
  induction cs with
  | nil => intro a hwf _; exact ⟨a, rfl, hwf, rfl, rfl⟩
  | cons hd tl ih =>
    intro a hwf hin
    obtain ⟨p, c⟩ := hd
    have hpb := hin (p, c) (List.mem_cons_self _ _)
    obtain ⟨a1, h1⟩ := Option.isSome_iff_exists.mp
      (setColorAt_isSome_of_WF a hwf p c hpb.1 hpb.2)
    obtain ⟨hwf1, hw1, hh1⟩ := setColorAt_WF a a1 p c hwf h1
    obtain ⟨a2, h2, hwf2, hw2, hh2⟩ := ih a1 hwf1 (fun pc hpc => by
      rw [hw1, hh1]
      exact hin pc (List.mem_cons_of_mem _ hpc))
    exact ⟨a2, by simp only [Image.apply, h1, Option.bind_eq_bind,
      Option.some_bind, h2], hwf2, hw2.trans hw1, hh2.trans hh1⟩

/-- C1 as amended: when the change-set positions are pairwise distinct (and
in bounds, on well-formed same-sized images), `lossDelta` equals the total
loss over the touched positions after applying the change set minus the
total loss over those positions before.  The unrestricted claim fails on
duplicated positions (see the counterexample): each occurrence is summed. -/
theorem loss_delta_amended (cs : List (Point × Color)) (t a : Image)
    (hnd : (cs.map Prod.fst).Nodup)
    (hin : ∀ pc ∈ cs, pc.1.1 < t.width ∧ pc.1.2 < t.height)
    (hwt : t.WF) (hwa : a.WF) (hw : a.width = t.width)
    (hh : a.height = t.height) :
    ∃ a2, a.apply cs = some a2 ∧
      Image.loss_delta t a cs =
        some (lossOver t a2 (cs.map Prod.fst) - lossOver t a (cs.map Prod.fst)) := by
  have hina : ∀ pc ∈ cs, pc.1.1 < a.width ∧ pc.1.2 < a.height := by
    intro pc hpc
    rw [hw, hh]
    exact hin pc hpc
  obtain ⟨a2, happ, hwf2, hw2, hh2⟩ := apply_isSome cs a hwa hina
  refine ⟨a2, happ, ?_⟩
  rw [loss_delta_eq_sum t a cs (fun pc hpc =>
    ⟨color_at_isSome_of_WF t hwt pc.1 (hin pc hpc).1 (hin pc hpc).2,
     color_at_isSome_of_WF a hwa pc.1 (hina pc hpc).1 (hina pc hpc).2⟩)]
  refine congrArg some ?_
  unfold lossOver
  rw [List.map_map, List.map_map]
  have e2 : (cs.map ((fun p => Image.pixel_loss (t.colorAtD p) (a2.colorAtD p)) ∘
      Prod.fst)) = cs.map fun pc => Image.pixel_loss (t.colorAtD pc.1) pc.2 := by
    refine List.map_congr_left fun pc hpc => ?_
    have hget := apply_get cs a a2 hnd hina happ pc hpc
    simp only [Function.comp_apply, Image.colorAtD, hget, Option.getD_some]
  rw [e2, ← sum_map_sub_int]
  rfl

/-- Target, approximation and duplicated change set for the C1
counterexample: one pixel written twice with the same color. -/
def c1T : Image := ⟨1, 1, [255, 0, 0]⟩

/-- Approximation for the C1 counterexample. -/
def c1A : Image := ⟨1, 1, [0, 0, 0]⟩

/-- Change set with a duplicated position for the C1 counterexample. -/
def c1CS : List (Point × Color) := [((0, 0), ⟨127, 0, 0⟩), ((0, 0), ⟨127, 0, 0⟩)]

/-- C1 counterexample: on a change set that repeats position (0,0) — as the
rasterizer does at octant seams — `loss_delta` returns twice the
per-position delta (−97282), while the loss over the touched positions
after applying minus before is −48641: the source double-counts duplicated
coordinates. -/
theorem loss_delta_cex :
    Image.loss_delta c1T c1A c1CS = some (-97282) ∧
    (Image.apply c1A c1CS).map
      (fun a2 => lossOver c1T a2 ((c1CS.map Prod.fst).dedup) -
        lossOver c1T c1A ((c1CS.map Prod.fst).dedup)) = some (-48641) ∧
    (-97282 : ℤ) ≠ -48641 := by
  refine ⟨by decide, by decide, by decide⟩

/-- Witness: the amended C1 at a concrete duplicate-free change set. -/
theorem loss_delta_amended_witness :
    ∃ a2, Image.apply c1A [((0, 0), (⟨9, 9, 9⟩ : Color))] = some a2 ∧
      Image.loss_delta c1T c1A [((0, 0), (⟨9, 9, 9⟩ : Color))] =
        some (lossOver c1T a2 ([((0, 0), (⟨9, 9, 9⟩ : Color))].map Prod.fst) -
          lossOver c1T c1A ([((0, 0), (⟨9, 9, 9⟩ : Color))].map Prod.fst)) :=
  loss_delta_amended [((0, 0), ⟨9, 9, 9⟩)] c1T c1A (by decide) (by decide)
    (by decide) (by decide) (by decide) (by decide)

/-- C7: `pixelLoss` is the per-channel sum of squared differences; it is
nonnegative, bounded by `3 * 255 ^ 2` on 8-bit colors, and zero exactly on
equal colors. -/
theorem pixel_loss_props (a b : Color) :
    0 ≤ Image.pixel_loss a b ∧
    (a.InRange → b.InRange → Image.pixel_loss a b ≤ 3 * 255 ^ 2) ∧
    (Image.pixel_loss a b = 0 ↔ a = b) := by
  obtain ⟨ar, ag, ab⟩ := a
  obtain ⟨br, bg, bb⟩ := b
  unfold Image.pixel_loss Color.InRange
  simp only [Color.mk.injEq]
  refine ⟨by positivity, ?_, ?_⟩
  · rintro ⟨h1, h2, h3⟩ ⟨h4, h5, h6⟩
    have b1 : ((ar : ℤ) - br) ^ 2 ≤ 255 ^ 2 := by
      have := sq_le_sq' (a := (ar : ℤ) - br) (b := 255) (by omega) (by omega)
      simpa using this
    have b2 : ((ag : ℤ) - bg) ^ 2 ≤ 255 ^ 2 := by
      have := sq_le_sq' (a := (ag : ℤ) - bg) (b := 255) (by omega) (by omega)
      simpa using this
    have b3 : ((ab : ℤ) - bb) ^ 2 ≤ 255 ^ 2 := by
      have := sq_le_sq' (a := (ab : ℤ) - bb) (b := 255) (by omega) (by omega)
      simpa using this
    linarith
  · constructor
    · intro h
      have s1 := sq_nonneg ((ar : ℤ) - br)
      have s2 := sq_nonneg ((ag : ℤ) - bg)
      have s3 := sq_nonneg ((ab : ℤ) - bb)
      have e1 : ((ar : ℤ) - br) ^ 2 = 0 := by linarith
      have e2 : ((ag : ℤ) - bg) ^ 2 = 0 := by linarith
      have e3 : ((ab : ℤ) - bb) ^ 2 = 0 := by linarith
      have := pow_eq_zero_iff (n := 2) (by norm_num) |>.mp e1
      have := pow_eq_zero_iff (n := 2) (by norm_num) |>.mp e2
      have := pow_eq_zero_iff (n := 2) (by norm_num) |>.mp e3
      omega
    · rintro ⟨h1, h2, h3⟩
      subst h1; subst h2; subst h3; ring

/-- Witness for C7 at concrete 8-bit colors. -/
theorem pixel_loss_props_witness :
    0 ≤ Image.pixel_loss ⟨1, 2, 3⟩ ⟨255, 0, 7⟩ ∧
    Image.pixel_loss ⟨1, 2, 3⟩ ⟨255, 0, 7⟩ ≤ 3 * 255 ^ 2 ∧
    (Image.pixel_loss ⟨1, 2, 3⟩ ⟨255, 0, 7⟩ = 0 ↔
      (⟨1, 2, 3⟩ : Color) = ⟨255, 0, 7⟩) :=
  ⟨(pixel_loss_props ⟨1, 2, 3⟩ ⟨255, 0, 7⟩).1,
   (pixel_loss_props ⟨1, 2, 3⟩ ⟨255, 0, 7⟩).2.1 (by decide) (by decide),
   (pixel_loss_props ⟨1, 2, 3⟩ ⟨255, 0, 7⟩).2.2⟩

/-- Abstract uniform sampler: `sample lo hi` draws from the inclusive range
`[lo, hi]`.  `in_range` is the contract of `rand::random_range` on a
nonempty range; panics on empty ranges are modeled in `randomBelow` and
`randomIn` below. -/
structure Rng where
  sample : ℕ → ℕ → ℕ
  in_range : ∀ lo hi, lo ≤ hi → lo ≤ sample lo hi ∧ sample lo hi ≤ hi

/-- `random_range(0..n)` (exclusive upper bound, src/main.rs:153-154):
panics when the range is empty. -/
def randomBelow (rng : Rng) (n : ℕ) : Option ℕ :=
  if 0 < n then some (rng.sample 0 (n - 1)) else none

/-- `random_range(lo..=hi)` (inclusive, src/main.rs:157): panics when the
range is empty. -/
def randomIn (rng : Rng) (lo hi : ℕ) : Option ℕ :=
  if lo ≤ hi then some (rng.sample lo hi) else none

/-- The radius sampling of `tick` (src/main.rs:156-157):
`random_range(1..=min(width,height)/4)`. -/
def sampledRadius (rng : Rng) (target : Image) : Option ℕ :=
  randomIn rng 1 (target.width.min target.height / 4)

/-- The filtered change set built by `tick` (src/main.rs:163-168): the
in-bounds rasterized points, each paired with the estimated color. -/
def buildChanges (target : Image) (pts : List (ℤ × ℤ)) (color : Color) :
    List (Point × Color) :=
  (pts.filter (inBoundsZ target.width target.height)).map
    fun p => ((p.1.toNat, p.2.toNat), color)

/-- The candidate change set of one `tick` (src/main.rs:152-168): sample a
center and radius, rasterize, estimate the color, filter to bounds. -/
def tickChanges (rng : Rng) (target : Image) : Option (List (Point × Color)) := do
  let cx ← randomBelow rng target.width
  let cy ← randomBelow rng target.height
  let radius ← sampledRadius rng target
  let pts := generate_circle_points (cx : ℤ) (cy : ℤ) (radius : ℤ)
  let color ← calculate_weighted_color target (cx : ℤ) (cy : ℤ) (radius : ℤ) pts
  pure (buildChanges target pts color)

/-- `tick` (src/main.rs:152-178): compute the candidate change set and its
loss delta; reject (returning `false` and the untouched approximation) when
`delta >= 0`, otherwise apply the change set and return `true`. -/
def tick (rng : Rng) (target approx : Image) : Option (Bool × Image) := do
  let changes ← tickChanges rng target
  let delta ← Image.loss_delta target approx changes
  if 0 ≤ delta then
    pure (false, approx)
  else do
    let approx2 ← approx.apply changes
    pure (true, approx2)

/-- C2: whenever the loss delta of the candidate change set is nonnegative,
`tick` returns `false` and the approximation it returns is the very input
buffer — no mutation is performed. -/
theorem tick_reject (rng : Rng) (target approx : Image)
    (cs : List (Point × Color)) (delta : ℤ)
    (hcs : tickChanges rng target = some cs)
    (hdelta : Image.loss_delta target approx cs = some delta)
    (hpos : 0 ≤ delta) :
    tick rng target approx = some (false, approx) := by
  simp only [tick, hcs, hdelta, Option.bind_eq_bind, Option.some_bind,
    if_pos hpos]
  rfl

/-- The deterministic sampler returning the lower end of every range. -/
def rngLo : Rng := ⟨fun lo _ => lo, fun _ _ h => ⟨le_rfl, h⟩⟩

/-- All-black 4×4 image for the C2 and C10 witnesses. -/
def t4 : Image := ⟨4, 4, List.replicate 48 0⟩

/-- Every position of a tick change set is in bounds and carries the single
estimated color. -/
theorem buildChanges_bounds (target : Image) (pts : List (ℤ × ℤ))
    (color : Color) :
    ∀ pc ∈ buildChanges target pts color,
      pc.1.1 < target.width ∧ pc.1.2 < target.height ∧ pc.2 = color := by
  intro pc hpc
  unfold buildChanges at hpc
  obtain ⟨p, hp, he⟩ := List.mem_map.mp hpc
  have hb := List.of_mem_filter hp
  unfold inBoundsZ at hb
  simp only [Bool.and_eq_true, decide_eq_true_eq] at hb
  obtain ⟨⟨⟨h1, h2⟩, h3⟩, h4⟩ := hb
  subst he
  refine ⟨?_, ?_, rfl⟩
  · show p.1.toNat < target.width
    omega
  · show p.2.toNat < target.height
    omega

/-- A `seqMap` whose accessor always succeeds succeeds, preserving length. -/
theorem seqMap_isSome {α β : Type} (f : α → Option β) (l : List α)
    (h : ∀ x ∈ l, (f x).isSome) :
    ∃ out, seqMap f l = some out ∧ out.length = l.length := by
  induction l with
  | nil => exact ⟨[], rfl, rfl⟩
  | cons a l ih =>
    obtain ⟨b, hb⟩ := Option.isSome_iff_exists.mp (h a (List.mem_cons_self _ _))
    obtain ⟨out, hout, hlen⟩ := ih (fun x hx => h x (List.mem_cons_of_mem _ hx))
    refine ⟨b :: out, ?_, by simp [hlen]⟩
    simp only [seqMap, hb, hout, Option.bind_eq_bind, Option.some_bind]
    rfl

/-- On a well-formed target, the color estimator never fails. -/
theorem calculate_weighted_color_isSome (target : Image) (hwt : target.WF)
    (cx cy radius : ℤ) (pts : List (ℤ × ℤ)) :
    (calculate_weighted_color target cx cy radius pts).isSome := by
  have hcent : (centerColorOf target cx cy).isSome := by
    unfold centerColorOf
    by_cases hb : 0 ≤ cx ∧ 0 ≤ cy ∧ cx < (target.width : ℤ) ∧
        cy < (target.height : ℤ)
    · rw [if_pos hb]
      exact color_at_isSome_of_WF target hwt _ (by omega) (by omega)
    · rw [if_neg hb]; rfl
  obtain ⟨cc, hcc⟩ := Option.isSome_iff_exists.mp hcent
  have hsome : ∀ p ∈ pts.filter (inBoundsZ target.width target.height),
      ((fun p : ℤ × ℤ => target.color_at (p.1.toNat, p.2.toNat)) p).isSome := by
    intro p hp
    have hb := List.of_mem_filter hp
    unfold inBoundsZ at hb
    simp only [Bool.and_eq_true, decide_eq_true_eq] at hb
    exact color_at_isSome_of_WF target hwt _ (by omega) (by omega)
  obtain ⟨colors, hcolors, _⟩ := seqMap_isSome _ _ hsome
  unfold calculate_weighted_color
  rw [hcc]
  simp only [Option.bind_eq_bind, Option.some_bind, hcolors]
  by_cases hlen : colors.length = 0 <;> simp [hlen]

/-- C10: `tick` panics (before proposing any candidate) exactly on targets
with `min(width, height) < 4` — the radius range `1..=min/4` is then empty
(or a zero dimension already empties the center range); for
`min(width, height) ≥ 4` every `tick` on well-formed same-sized buffers
completes, and the sampled radius always lies in `[1, min(width,height)/4]`. -/
theorem tick_totality (rng : Rng) (t a : Image) (hwt : t.WF) (hwa : a.WF)
    (hw : a.width = t.width) (hh : a.height = t.height) :
    (t.width.min t.height < 4 → tick rng t a = none) ∧
    (4 ≤ t.width.min t.height →
      (tick rng t a).isSome ∧
      ∀ r, sampledRadius rng t = some r →
        1 ≤ r ∧ r ≤ t.width.min t.height / 4) := by
  constructor
  · intro hlt
    have h4 : t.width.min t.height / 4 = 0 := by omega
    have hrad : sampledRadius rng t = none := by
      unfold sampledRadius randomIn
      rw [h4, if_neg (by omega)]
    unfold tick tickChanges
    cases hcx : randomBelow rng t.width with
    | none => simp
    | some cx =>
      cases hcy : randomBelow rng t.height with
      | none => simp
      | some cy => simp [hrad]
  · intro h4
    have hmin1 : t.width.min t.height ≤ t.width := Nat.min_le_left _ _
    have hmin2 : t.width.min t.height ≤ t.height := Nat.min_le_right _ _
    have hwpos : 0 < t.width := by omega
    have hhpos : 0 < t.height := by omega
    have hmr : 1 ≤ t.width.min t.height / 4 := by omega
    have hcx : randomBelow rng t.width = some (rng.sample 0 (t.width - 1)) := by
      unfold randomBelow
      rw [if_pos hwpos]
    have hcy : randomBelow rng t.height = some (rng.sample 0 (t.height - 1)) := by
      unfold randomBelow
      rw [if_pos hhpos]
    have hrad : sampledRadius rng t =
        some (rng.sample 1 (t.width.min t.height / 4)) := by
      unfold sampledRadius randomIn
      rw [if_pos hmr]
    constructor
    · set sx := rng.sample 0 (t.width - 1) with hsx
      set sy := rng.sample 0 (t.height - 1) with hsy
      set sr := rng.sample 1 (t.width.min t.height / 4) with hsr
      set pts := generate_circle_points (sx : ℤ) (sy : ℤ) (sr : ℤ) with hpts
      obtain ⟨color, hcol⟩ := Option.isSome_iff_exists.mp
        (calculate_weighted_color_isSome t hwt (sx : ℤ) (sy : ℤ) (sr : ℤ) pts)
      set CS := buildChanges t pts color with hCS
      have hcsb : ∀ pc ∈ CS,
          pc.1.1 < t.width ∧ pc.1.2 < t.height ∧ pc.2 = color := by
        rw [hCS]
        exact buildChanges_bounds t pts color
      have hld := loss_delta_eq_sum t a CS
        (fun pc hpc =>
          ⟨color_at_isSome_of_WF t hwt pc.1 (hcsb pc hpc).1 (hcsb pc hpc).2.1,
           color_at_isSome_of_WF a hwa pc.1 (by rw [hw]; exact (hcsb pc hpc).1)
             (by rw [hh]; exact (hcsb pc hpc).2.1)⟩)
      obtain ⟨a2, happ, _, _, _⟩ := apply_isSome CS a hwa
        (fun pc hpc => ⟨by rw [hw]; exact (hcsb pc hpc).1,
          by rw [hh]; exact (hcsb pc hpc).2.1⟩)
      unfold tick tickChanges
      rw [hcx]
      simp only [Option.bind_eq_bind, Option.some_bind]
      rw [hcy]
      simp only [Option.some_bind]
      rw [hrad]
      simp only [Option.some_bind]
      rw [← hpts, hcol]
      simp only [Option.some_bind, Option.pure_def, Option.some_bind]
      rw [← hCS, hld]
      simp only [Option.some_bind]
      split
      · rfl
      · rw [happ]
        rfl
    · intro r hr
      rw [hrad] at hr
      have hr' : rng.sample 1 (t.width.min t.height / 4) = r :=
        Option.some_injective _ hr
      have := rng.in_range 1 (t.width.min t.height / 4) hmr
      omega

/-- Witness for C10 on a 4×4 target: `tick` completes, and the sampled
radius is 1 ∈ [1, 4/4]. -/
theorem tick_totality_witness :
    (tick rngLo t4 t4).isSome ∧ (1 ≤ 1 ∧ 1 ≤ t4.width.min t4.height / 4) := by
  have h := tick_totality rngLo t4 t4 (by decide) (by decide) rfl rfl
  have h4 : 4 ≤ t4.width.min t4.height := by decide
  exact ⟨(h.2 h4).1, (h.2 h4).2 1 (by decide)⟩

/-- The change set `tick` builds on `t4` with the low sampler: center (0,0),
radius 1, color black, in-bounds points only (note the duplicates). -/
def tickCS0 : List (Point × Color) :=
  [((0, 1), ⟨0, 0, 0⟩), ((0, 1), ⟨0, 0, 0⟩), ((1, 0), ⟨0, 0, 0⟩),
   ((1, 0), ⟨0, 0, 0⟩)]

set_option maxRecDepth 100000 in
/-- The estimator on the all-black 4×4 target returns black. -/
theorem cw_t4_eval :
    calculate_weighted_color t4 0 0 1 (generate_circle_points 0 0 1) =
      some ⟨0, 0, 0⟩ := by
  have hc : centerColorOf t4 0 0 = some ⟨0, 0, 0⟩ := by decide
  have hm : seqMap (fun p => t4.color_at (p.1.toNat, p.2.toNat))
      ((generate_circle_points 0 0 1).filter (inBoundsZ t4.width t4.height)) =
      some [⟨0, 0, 0⟩, ⟨0, 0, 0⟩, ⟨0, 0, 0⟩, ⟨0, 0, 0⟩] := by decide
  rw [calculate_weighted_color, hc]
  simp only [Option.bind_eq_bind, Option.some_bind, hm]
  norm_num [f32toU8, min_def, t4, Int.toNat]

set_option maxRecDepth 100000 in
/-- Witness for C2: on the all-black 4×4 target with an all-black
approximation, the candidate's delta is 0 and `tick` returns
`(false, approx)` with the approximation untouched. -/
theorem tick_reject_witness :
    tickChanges rngLo t4 = some tickCS0 ∧
    Image.loss_delta t4 t4 tickCS0 = some 0 ∧
    tick rngLo t4 t4 = some (false, t4) := by
  have h1 : randomBelow rngLo t4.width = some 0 := by decide
  have h2 : randomBelow rngLo t4.height = some 0 := by decide
  have h3 : sampledRadius rngLo t4 = some 1 := by decide
  have hcs : tickChanges rngLo t4 = some tickCS0 := by
    unfold tickChanges
    rw [h1]
    simp only [Option.bind_eq_bind, Option.some_bind]
    rw [h2]
    simp only [Option.some_bind]
    rw [h3]
    simp only [Option.some_bind]
    rw [show ((0 : ℕ) : ℤ) = (0 : ℤ) from rfl, show ((1 : ℕ) : ℤ) = (1 : ℤ) from rfl,
      cw_t4_eval]
    simp only [Option.some_bind, Option.pure_def]
    exact congrArg some (by decide)
  have hdelta : Image.loss_delta t4 t4 tickCS0 = some 0 := by decide
  exact ⟨hcs, hdelta, tick_reject rngLo t4 t4 tickCS0 0 hcs hdelta le_rfl⟩

/-- Every successful `tickChanges` yields a change set of in-bounds
positions all carrying one single estimated color. -/
theorem tickChanges_spec (rng : Rng) (t : Image) (cs : List (Point × Color))
    (h : tickChanges rng t = some cs) :
    ∃ color, ∀ pc ∈ cs,
      pc.1.1 < t.width ∧ pc.1.2 < t.height ∧ pc.2 = color := by
  unfold tickChanges at h
  simp only [Option.bind_eq_bind, Option.bind_eq_some, Option.pure_def,
    Option.some.injEq] at h
  obtain ⟨cx, hcx, cy, hcy, rad, hrad, color, hcol, hcs⟩ := h
  subst hcs
  exact ⟨color, buildChanges_bounds t _ color⟩

/-- When every entry of the change set carries the same color, every touched
position ends up holding that color (duplicates are harmless idempotent
writes). -/
theorem apply_get_const (cs : List (Point × Color)) (color : Color) :
    ∀ a a2 : Image, (∀ pc ∈ cs, pc.2 = color) →
    (∀ pc ∈ cs, pc.1.1 < a.width ∧ pc.1.2 < a.height) →
    a.apply cs = some a2 →
    ∀ pc ∈ cs, a2.color_at pc.1 = some color := by
  induction cs with
  | nil => intro a a2 _ _ _ pc hpc; simp at hpc
  | cons hd tl ih =>
    intro a a2 hcol hin happ pc hpc
    obtain ⟨p, c⟩ := hd
    simp only [Image.apply, Option.bind_eq_bind, Option.bind_eq_some] at happ
    obtain ⟨a1, h1, h2⟩ := happ
    obtain ⟨hw1, hh1, hb1, hpix1⟩ := setColorAt_eq a a1 p c h1
    have hpb := hin (p, c) (List.mem_cons_self _ _)
    have hck : c = color := hcol (p, c) (List.mem_cons_self _ _)
    have hin1 : ∀ pc' ∈ tl, pc'.1.1 < a1.width ∧ pc'.1.2 < a1.height := by
      intro pc' hpc'
      rw [hw1, hh1]
      exact hin pc' (List.mem_cons_of_mem _ hpc')
    rcases List.mem_cons.mp hpc with rfl | hpc'
    · by_cases hmem : ∃ pc' ∈ tl, pc'.1 = p
      · obtain ⟨pc', hpc', hpe⟩ := hmem
        have := ih a1 a2 (fun x hx => hcol x (List.mem_cons_of_mem _ hx))
          hin1 h2 pc' hpc'
        rw [hpe] at this
        exact this
      · push_neg at hmem
        have hfr := apply_frame tl a1 a2 h2 hin1
        rw [hfr.2.2 p (by rw [hw1]; exact hpb.1) (by rw [hh1]; exact hpb.2)
          (fun pc' hpc' => hmem pc' hpc'),
          setColorAt_get a a1 p c h1, hck]
    · exact ih a1 a2 (fun x hx => hcol x (List.mem_cons_of_mem _ hx))
        hin1 h2 pc hpc'

/-- Total loss only depends on the pixels inside the target grid. -/
theorem totalLoss_congr (t i1 i2 : Image)
    (h : ∀ q : Point, q.1 < t.width → q.2 < t.height →
      i1.color_at q = i2.color_at q) :
    totalLoss t i1 = totalLoss t i2 := by
  unfold totalLoss lossOver
  refine congrArg _ (List.map_congr_left fun q hq => ?_)
  obtain ⟨q1, q2⟩ := q
  have hb := (mem_positionsList t.width t.height q1 q2).mp hq
  simp only [Image.colorAtD, h (q1, q2) hb.1 hb.2]

/-- C3 as amended: an accepted `tick` (delta < 0) applies its change set and
returns `true`, and the total loss over the full image changes by exactly
the deduplicated delta — the per-occurrence delta that `tick` tests can
differ from it on rasterizer seam duplicates, so the total loss need not
strictly decrease (see the counterexample). -/
theorem tick_accept_amended (rng : Rng) (t a : Image)
    (cs : List (Point × Color)) (delta deltad : ℤ)
    (hwt : t.WF) (hwa : a.WF) (hw : a.width = t.width)
    (hh : a.height = t.height)
    (hcs : tickChanges rng t = some cs)
    (hdelta : Image.loss_delta t a cs = some delta) (hneg : delta < 0)
    (hdeltad : Image.loss_delta t a cs.dedup = some deltad) :
    (tick rng t a).map (fun res => (res.1, totalLoss t res.2)) =
      some (true, totalLoss t a + deltad) := by
  obtain ⟨color, hbound⟩ := tickChanges_spec rng t cs hcs
  have hina : ∀ pc ∈ cs, pc.1.1 < a.width ∧ pc.1.2 < a.height := by
    intro pc hpc
    rw [hw, hh]
    exact ⟨(hbound pc hpc).1, (hbound pc hpc).2.1⟩
  have hdsub : ∀ pc ∈ cs.dedup, pc ∈ cs := fun pc hpc => List.mem_dedup.mp hpc
  have hinad : ∀ pc ∈ cs.dedup, pc.1.1 < a.width ∧ pc.1.2 < a.height :=
    fun pc hpc => hina pc (hdsub pc hpc)
  have hndd : (cs.dedup.map Prod.fst).Nodup := by
    refine List.Nodup.map_on ?_ (List.nodup_dedup cs)
    intro x hx y hy hxy
    have hcx := (hbound x (hdsub x hx)).2.2
    have hcy := (hbound y (hdsub y hy)).2.2
    exact Prod.ext hxy (hcx.trans hcy.symm)
  obtain ⟨a2, happ, hwf2, hw2, hh2⟩ := apply_isSome cs a hwa hina
  obtain ⟨a2', happ', _, _, _⟩ := apply_isSome cs.dedup a hwa hinad
  have hpt : ∀ q : Point, q.1 < t.width → q.2 < t.height →
      a2.color_at q = a2'.color_at q := by
    intro q hq1 hq2
    by_cases hqm : ∃ pc ∈ cs, pc.1 = q
    · obtain ⟨pc, hpc, rfl⟩ := hqm
      rw [apply_get_const cs color a a2 (fun x hx => (hbound x hx).2.2)
        hina happ pc hpc,
        apply_get_const cs.dedup color a a2'
          (fun x hx => (hbound x (hdsub x hx)).2.2) hinad happ' pc
          (List.mem_dedup.mpr hpc)]
    · push_neg at hqm
      have hfr := apply_frame cs a a2 happ hina
      have hfr' := apply_frame cs.dedup a a2' happ' hinad
      rw [hfr.2.2 q (by rw [hw]; exact hq1) (by rw [hh]; exact hq2)
        (fun pc hpc => hqm pc hpc),
        hfr'.2.2 q (by rw [hw]; exact hq1) (by rw [hh]; exact hq2)
          (fun pc hpc => hqm pc (hdsub pc hpc))]
  have htl_eq : totalLoss t a2 = totalLoss t a2' := totalLoss_congr t a2 a2' hpt
  have hmaster := totalLoss_apply cs.dedup t a a2' hndd
    (fun pc hpc => ⟨(hbound pc (hdsub pc hpc)).1, (hbound pc (hdsub pc hpc)).2.1⟩)
    hw hh happ'
  have hsum := loss_delta_eq_sum t a cs.dedup
    (fun pc hpc =>
      ⟨color_at_isSome_of_WF t hwt pc.1 (hbound pc (hdsub pc hpc)).1
        (hbound pc (hdsub pc hpc)).2.1,
       color_at_isSome_of_WF a hwa pc.1 (hinad pc hpc).1 (hinad pc hpc).2⟩)
  rw [hsum] at hdeltad
  have hdd : deltad = ((cs.dedup.map fun pc =>
      Image.pixel_loss (t.colorAtD pc.1) pc.2 -
        Image.pixel_loss (t.colorAtD pc.1) (a.colorAtD pc.1))).sum :=
    (Option.some_injective _ hdeltad).symm
  unfold tick
  rw [hcs]
  simp only [Option.bind_eq_bind, Option.some_bind]
  rw [hdelta]
  simp only [Option.some_bind]
  rw [if_neg (by omega), happ]
  simp only [Option.some_bind, Option.pure_def, Option.map_some]
  refine congrArg some (congrArg (Prod.mk true) ?_)
  rw [htl_eq, hmaster, hdd]

/-- Sampler for the C3 counterexample: center draws return 4, the radius
draw returns 2 (clamped into the requested range). -/
def rngC3 : Rng :=
  ⟨fun lo hi => max lo (min (if lo = 0 then 4 else 2) hi),
   fun lo hi h => ⟨le_max_left _ _, max_le h (min_le_right _ _)⟩⟩

/-- Target for the C3 counterexample: 8×8, red 255 at the four axis points
of the radius-2 circle around (4,4) — exactly the positions the rasterizer
emits twice — black elsewhere. -/
def c3T : Image :=
  ⟨8, 8, [0, 0, 0, 0, 0, 0, 0, 0, 0, 0, 0, 0, 0, 0, 0, 0, 0, 0, 0, 0, 0, 0, 0, 0, 0, 0, 0, 0, 0, 0, 0, 0, 0, 0, 0, 0, 0, 0, 0, 0, 0, 0, 0, 0, 0, 0, 0, 0, 0, 0, 0, 0, 0, 0, 0, 0, 0, 0, 0, 0, 255, 0, 0, 0, 0, 0, 0, 0, 0, 0, 0, 0, 0, 0, 0, 0, 0, 0, 0, 0, 0, 0, 0, 0, 0, 0, 0, 0, 0, 0, 0, 0, 0, 0, 0, 0, 0, 0, 0, 0, 0, 0, 255, 0, 0, 0, 0, 0, 0, 0, 0, 0, 0, 0, 255, 0, 0, 0, 0, 0, 0, 0, 0, 0, 0, 0, 0, 0, 0, 0, 0, 0, 0, 0, 0, 0, 0, 0, 0, 0, 0, 0, 0, 0, 0, 0, 0, 0, 0, 0, 0, 0, 0, 0, 0, 0, 255, 0, 0, 0, 0, 0, 0, 0, 0, 0, 0, 0, 0, 0, 0, 0, 0, 0, 0, 0, 0, 0, 0, 0, 0, 0, 0, 0, 0, 0, 0, 0, 0, 0, 0, 0]⟩

/-- Approximation for the C3 counterexample: red 55 at the same four axis
points, black elsewhere. -/
def c3A : Image :=
  ⟨8, 8, [0, 0, 0, 0, 0, 0, 0, 0, 0, 0, 0, 0, 0, 0, 0, 0, 0, 0, 0, 0, 0, 0, 0, 0, 0, 0, 0, 0, 0, 0, 0, 0, 0, 0, 0, 0, 0, 0, 0, 0, 0, 0, 0, 0, 0, 0, 0, 0, 0, 0, 0, 0, 0, 0, 0, 0, 0, 0, 0, 0, 55, 0, 0, 0, 0, 0, 0, 0, 0, 0, 0, 0, 0, 0, 0, 0, 0, 0, 0, 0, 0, 0, 0, 0, 0, 0, 0, 0, 0, 0, 0, 0, 0, 0, 0, 0, 0, 0, 0, 0, 0, 0, 55, 0, 0, 0, 0, 0, 0, 0, 0, 0, 0, 0, 55, 0, 0, 0, 0, 0, 0, 0, 0, 0, 0, 0, 0, 0, 0, 0, 0, 0, 0, 0, 0, 0, 0, 0, 0, 0, 0, 0, 0, 0, 0, 0, 0, 0, 0, 0, 0, 0, 0, 0, 0, 0, 55, 0, 0, 0, 0, 0, 0, 0, 0, 0, 0, 0, 0, 0, 0, 0, 0, 0, 0, 0, 0, 0, 0, 0, 0, 0, 0, 0, 0, 0, 0, 0, 0, 0, 0, 0]⟩

/-- The change set `tick` builds on `c3T` with `rngC3`: the 16 rasterized
occurrences (four axis positions twice each) colored (127,0,0). -/
def c3CS : List (Point × Color) :=
  [((4,6),⟨127,0,0⟩),((4,6),⟨127,0,0⟩),((4,2),⟨127,0,0⟩),((4,2),⟨127,0,0⟩),
   ((6,4),⟨127,0,0⟩),((2,4),⟨127,0,0⟩),((6,4),⟨127,0,0⟩),((2,4),⟨127,0,0⟩),
   ((5,6),⟨127,0,0⟩),((3,6),⟨127,0,0⟩),((5,2),⟨127,0,0⟩),((3,2),⟨127,0,0⟩),
   ((6,5),⟨127,0,0⟩),((2,5),⟨127,0,0⟩),((6,3),⟨127,0,0⟩),((2,3),⟨127,0,0⟩)]

set_option maxRecDepth 1000000 in
/-- The estimator on `c3T` at center (4,4), radius 2: the edge mean over
the 16 occurrences is (8·255)/16 = 127.5 (duplicates counted twice),
truncated to 127; the weight is 2/2 = 1, so the color is (127,0,0). -/
theorem cw_c3_eval :
    calculate_weighted_color c3T 4 4 2 (generate_circle_points 4 4 2) =
      some ⟨127, 0, 0⟩ := by
  have hc : centerColorOf c3T 4 4 = some ⟨0, 0, 0⟩ := by decide
  have hm : seqMap (fun p => c3T.color_at (p.1.toNat, p.2.toNat))
      ((generate_circle_points 4 4 2).filter (inBoundsZ c3T.width c3T.height)) =
      some [⟨255,0,0⟩,⟨255,0,0⟩,⟨255,0,0⟩,⟨255,0,0⟩,⟨255,0,0⟩,⟨255,0,0⟩,
        ⟨255,0,0⟩,⟨255,0,0⟩,⟨0,0,0⟩,⟨0,0,0⟩,⟨0,0,0⟩,⟨0,0,0⟩,⟨0,0,0⟩,⟨0,0,0⟩,
        ⟨0,0,0⟩,⟨0,0,0⟩] := by decide
  rw [calculate_weighted_color, hc]
  simp only [Option.bind_eq_bind, Option.some_bind, hm]
  norm_num [f32toU8, min_def, c3T, Int.toNat]

set_option maxRecDepth 1000000 in
/-- The candidate `tick` builds on `c3T` with `rngC3` is `c3CS`. -/
theorem c3_changes_eval : tickChanges rngC3 c3T = some c3CS := by
  have h1 : randomBelow rngC3 c3T.width = some 4 := by decide
  have h2 : randomBelow rngC3 c3T.height = some 4 := by decide
  have h3 : sampledRadius rngC3 c3T = some 2 := by decide
  unfold tickChanges
  rw [h1]
  simp only [Option.bind_eq_bind, Option.some_bind]
  rw [h2]
  simp only [Option.some_bind]
  rw [h3]
  simp only [Option.some_bind]
  rw [show ((4 : ℕ) : ℤ) = (4 : ℤ) from rfl,
    show ((2 : ℕ) : ℤ) = (2 : ℤ) from rfl, cw_c3_eval]
  simp only [Option.some_bind, Option.pure_def]
  exact congrArg some (by decide)

set_option maxRecDepth 1000000 in
/-- The per-occurrence delta of `c3CS` is negative (accepted)... -/
theorem c3_delta_eval : Image.loss_delta c3T c3A c3CS = some (-59896) := by
  decide

set_option maxRecDepth 1000000 in
/-- ... but the deduplicated delta — the true change in total loss — is
positive. -/
theorem c3_deltad_eval :
    Image.loss_delta c3T c3A c3CS.dedup = some 34568 := by decide

set_option maxRecDepth 1000000 in
/-- C3 counterexample: with `rngC3` on `c3T`/`c3A`, `tick` computes delta
−59896 < 0, applies its change set and returns `true`, yet the total
squared-error loss over the full image *increases* by 34568: the four
duplicated axis positions have their improvement double-counted, outvoting
the eight worsened single positions. -/
theorem tick_accept_cex :
    (tick rngC3 c3T c3A).map
      (fun res => (res.1, totalLoss c3T res.2 - totalLoss c3T c3A)) =
      some (true, 34568) ∧ (0 : ℤ) < 34568 := by
  refine ⟨?_, by decide⟩
  unfold tick
  rw [c3_changes_eval]
  simp only [Option.bind_eq_bind, Option.some_bind]
  rw [c3_delta_eval]
  simp only [Option.some_bind]
  rw [if_neg (by decide)]
  decide

set_option maxRecDepth 1000000 in
/-- Witness: the amended C3 instantiated at the counterexample inputs — the
total loss changes by exactly the deduplicated delta. -/
theorem tick_accept_amended_witness :
    (tick rngC3 c3T c3A).map (fun res => (res.1, totalLoss c3T res.2)) =
      some (true, totalLoss c3T c3A + 34568) :=
  tick_accept_amended rngC3 c3T c3A c3CS (-59896) 34568 (by decide) (by decide)
    rfl rfl c3_changes_eval c3_delta_eval (by decide) c3_deltad_eval

/-- One reduction step of `min_by` (src/main.rs:217-226): keep the current
best unless the new member's loss is strictly smaller — so the first
minimum wins ties, as `Iterator::min_by` specifies. -/
def minStep (tc : Color) (best x : Color) : Color :=
  if Image.pixel_loss x tc < Image.pixel_loss best tc then x else best

/-- `.min_by(|(_, a), (_, b)| a.total_cmp(b)).unwrap()` over the member
colors (src/main.rs:217-226): `none` models the unwrap panic on an empty
ensemble.  The losses are integers in `[0, 3·255²]`, exactly representable
in `f32`, so `total_cmp` agrees with the integer order used here. -/
def selectFirstMin (tc : Color) : List Color → Option Color
  | [] => none
  | c :: rest => some (rest.foldl (minStep tc) c)

/-- One composed pixel (src/main.rs:213-229): the target color at the
position, each member's color there, and the first member color of minimum
loss. -/
def composePixel (target : Image) (images : List Image) (p : Point) :
    Option Color := do
  let tc ← target.color_at p
  let colors ← seqMap (fun img => img.color_at p) images
  selectFirstMin tc colors

/-- `compose` (src/main.rs:210-232): the row-major sequence of composed
pixel colors.  (The `u32::from_be_bytes([0, r, g, b])` packing into the
display canvas is injective presentation and not modeled.) -/
def compose (target : Image) (images : List Image) : Option (List Color) :=
  seqMap (composePixel target images) (positionsList target.width target.height)

/-- The `min_by` fold either keeps the accumulator (which then bounds every
scanned loss) or returns a strictly better element that is the first one
attaining its loss. -/
theorem foldl_min_spec (tc : Color) :
    ∀ (l : List Color) (acc : Color),
      (l.foldl (minStep tc) acc = acc ∧
        ∀ x ∈ l, Image.pixel_loss acc tc ≤ Image.pixel_loss x tc) ∨
      (Image.pixel_loss (l.foldl (minStep tc) acc) tc <
          Image.pixel_loss acc tc ∧
        (∀ x ∈ l, Image.pixel_loss (l.foldl (minStep tc) acc) tc ≤
          Image.pixel_loss x tc) ∧
        l.find? (fun x => decide (Image.pixel_loss x tc =
          Image.pixel_loss (l.foldl (minStep tc) acc) tc)) =
          some (l.foldl (minStep tc) acc)) := by
  intro l
  induction l with
  | nil => intro acc; exact Or.inl ⟨rfl, by simp⟩
  | cons x l ih =>
    intro acc
    by_cases hx : Image.pixel_loss x tc < Image.pixel_loss acc tc
    · have hstep : minStep tc acc x = x := by unfold minStep; rw [if_pos hx]
      rw [List.foldl_cons, hstep]
      rcases ih x with ⟨heq, hall⟩ | ⟨hlt, hall, hfind⟩
      · refine Or.inr ⟨by rw [heq]; exact hx, ?_, ?_⟩
        · intro z hz
          rw [heq]
          rcases List.mem_cons.mp hz with rfl | hz'
          · exact le_rfl
          · exact hall z hz'
        · rw [heq]
          exact List.find?_cons_of_pos _ (by simp)
      · refine Or.inr ⟨lt_trans hlt hx, ?_, ?_⟩
        · intro z hz
          rcases List.mem_cons.mp hz with rfl | hz'
          · exact le_of_lt hlt
          · exact hall z hz'
        · refine (List.find?_cons_of_neg _ ?_).trans hfind
          simp only [decide_eq_true_eq]
          omega
    · have hstep : minStep tc acc x = acc := by unfold minStep; rw [if_neg hx]
      rw [List.foldl_cons, hstep]
      rcases ih acc with ⟨heq, hall⟩ | ⟨hlt, hall, hfind⟩
      · refine Or.inl ⟨heq, ?_⟩
        intro z hz
        rcases List.mem_cons.mp hz with rfl | hz'
        · omega
        · exact hall z hz'
      · refine Or.inr ⟨hlt, ?_, ?_⟩
        · intro z hz
          rcases List.mem_cons.mp hz with rfl | hz'
          · omega
          · exact hall z hz'
        · refine (List.find?_cons_of_neg _ ?_).trans hfind
          simp only [decide_eq_true_eq]
          omega

/-- The selected color is a member color of minimum loss, and it is the
first member attaining that loss. -/
theorem selectFirstMin_spec (tc : Color) (l : List Color) (c : Color)
    (h : selectFirstMin tc l = some c) :
    c ∈ l ∧ (∀ x ∈ l, Image.pixel_loss c tc ≤ Image.pixel_loss x tc) ∧
    l.find? (fun x => decide (Image.pixel_loss x tc = Image.pixel_loss c tc)) =
      some c := by
  cases l with
  | nil => exact absurd h (by simp [selectFirstMin])
  | cons c0 rest =>
    have hc : rest.foldl (minStep tc) c0 = c := by
      have := h
      unfold selectFirstMin at this
      exact Option.some_injective _ this
    rcases foldl_min_spec tc rest c0 with ⟨heq, hall⟩ | ⟨hlt, hall, hfind⟩
    · obtain rfl : c0 = c := heq.symm.trans hc
      refine ⟨List.mem_cons_self _ _, ?_, List.find?_cons_of_pos _ (by simp)⟩
      intro z hz
      rcases List.mem_cons.mp hz with rfl | hz'
      · exact le_rfl
      · exact hall z hz'
    · rw [hc] at hlt hall hfind
      refine ⟨List.mem_cons_of_mem _ (List.mem_of_find?_eq_some hfind), ?_, ?_⟩
      · intro z hz
        rcases List.mem_cons.mp hz with rfl | hz'
        · exact le_of_lt hlt
        · exact hall z hz'
      · refine (List.find?_cons_of_neg _ ?_).trans hfind
        simp only [decide_eq_true_eq]
        omega

/-- Indexing through a successful `seqMap`. -/
theorem seqMap_get {α β : Type} (f : α → Option β) :
    ∀ (l : List α) (out : List β), seqMap f l = some out →
      (∀ i : ℕ, out[i]? = (l[i]?).bind f) ∧ out.length = l.length := by
  intro l
  induction l with
  | nil =>
    intro out h
    obtain rfl : ([] : List β) = out := Option.some_injective _ h
    exact ⟨fun i => by simp, rfl⟩
  | cons a l ih =>
    intro out h
    simp only [seqMap, Option.bind_eq_bind, Option.bind_eq_some,
      Option.pure_def, Option.some.injEq] at h
    obtain ⟨b, hb, rest, hrest, hout⟩ := h
    obtain ⟨hidx, hlen⟩ := ih rest hrest
    subst hout
    refine ⟨fun i => ?_, by simp [hlen]⟩
    cases i with
    | zero => simp [hb]
    | succ i => simp [hidx i]

/-- C8: every pixel the composed buffer holds is the color of the member
with minimum pixel loss against the target at that position (so its loss is
≤ every member's loss there), and ties go to the first such member in
iteration order. -/
theorem compose_first_min (t : Image) (images : List Image)
    (canvas : List Color) (x y : ℕ)
    (hc : compose t images = some canvas) (hx : x < t.width)
    (hy : y < t.height) :
    ∃ c tc colors,
      canvas[y * t.width + x]? = some c ∧
      t.color_at (x, y) = some tc ∧
      seqMap (fun img => img.color_at (x, y)) images = some colors ∧
      c ∈ colors ∧
      (∀ col ∈ colors, Image.pixel_loss c tc ≤ Image.pixel_loss col tc) ∧
      colors.find? (fun col =>
        decide (Image.pixel_loss col tc = Image.pixel_loss c tc)) = some c := by
  obtain ⟨hidx, hlen⟩ := seqMap_get (composePixel t images)
    (positionsList t.width t.height) canvas hc
  have hflat : y * t.width + x < canvas.length := by
    rw [hlen]
    unfold positionsList
    rw [List.length_map, List.length_range]
    exact flat_lt t.width t.height x y hx hy
  have hval := hidx (y * t.width + x)
  rw [positionsList_get t.width t.height x y hx hy] at hval
  have hvs : (canvas[y * t.width + x]?).isSome := by
    rw [List.getElem?_eq_getElem hflat]
    rfl
  obtain ⟨c, hcv⟩ := Option.isSome_iff_exists.mp hvs
  have hcp : composePixel t images (x, y) = some c := by
    rw [← hcv, hval]
    rfl
  unfold composePixel at hcp
  simp only [Option.bind_eq_bind, Option.bind_eq_some] at hcp
  obtain ⟨tc, htc, colors, hcolors, hsel⟩ := hcp
  obtain ⟨hmem, hmin, hfirst⟩ := selectFirstMin_spec tc colors c hsel
  exact ⟨c, tc, colors, hcv, htc, hcolors, hmem, hmin, hfirst⟩

/-- Witness for C8: a 1×1 target (red 5) with two members (red 9 and
red 5); the composed pixel is the second member's exact color. -/
theorem compose_first_min_witness :
    ∃ c tc colors,
      ([(⟨5, 0, 0⟩ : Color)])[0 * (1 : ℕ) + 0]? = some c ∧
      Image.color_at ⟨1, 1, [5, 0, 0]⟩ (0, 0) = some tc ∧
      seqMap (fun img => img.color_at (0, 0))
        [(⟨1, 1, [9, 0, 0]⟩ : Image), ⟨1, 1, [5, 0, 0]⟩] = some colors ∧
      c ∈ colors ∧
      (∀ col ∈ colors, Image.pixel_loss c tc ≤ Image.pixel_loss col tc) ∧
      colors.find? (fun col =>
        decide (Image.pixel_loss col tc = Image.pixel_loss c tc)) = some c :=
  compose_first_min ⟨1, 1, [5, 0, 0]⟩
    [⟨1, 1, [9, 0, 0]⟩, ⟨1, 1, [5, 0, 0]⟩] [⟨5, 0, 0⟩] 0 0 (by decide)
    (by decide) (by decide)
